import Mathlib

/-!
# GeeCache: eviction cache, hash ring and group orchestrator

A shallow embedding of `geecache/lru/lru.go`, `geecache/consistenthash/consisitenthash.go`,
`geecache/singleflight/singleflight.go`, `geecache/geecache.go` and the peer picker of
`geecache/http.go`, followed by the properties established about them.

Conventions of the embedding
* A Go `string` is a Lean `String`; the builtin `len` of a string is its number of
  UTF-8 bytes (`strLen`).
* The doubly linked list `container/list` is a Lean `List` whose head is the list's
  front and whose last element is the list's back.
* Go's `int` / `int64` values, among them the result of `Value.Len()`, are Lean
  integers; 64-bit wrap-around of the byte counter is not modelled.  `int` is 64 bits
  wide, so the conversion `int(h)` of a `uint32` hash is exact.
* A loop that may fail to terminate takes a fuel argument (the number of times its
  condition may be evaluated) and returns `none` when the fuel is used up.
-/

set_option autoImplicit false

/-- Go's builtin `len` on a string: the number of bytes. -/
def strLen (s : String) : Nat := s.utf8ByteSize

namespace lru

/-- The interface `Value` of lru.go: anything with a method `Len() int`.  The result
is a Go `int`: an implementation is free to report any integer, also a negative one. -/
class Value (V : Type) where
  /-- The method `Len() int`. -/
  Len : V → Int

/-- The test-suite style value: a string whose `Len` is its byte length. -/
instance : Value String := ⟨fun s => (strLen s : Int)⟩

/-- A value that reports the number `n` as its length, whatever it is; `n` may be
negative, as the signature `Len() int` allows. -/
structure reported where
  n : Int
deriving DecidableEq, Repr

instance : Value reported := ⟨fun v => v.n⟩

/-- The struct `entry` of lru.go. -/
structure entry (V : Type) where
  key : String
  value : V
deriving DecidableEq, Repr

/-- The struct `Cache` of lru.go.

* `ll` is the recency list, front first.
* The index `cache map[string]*list.Element` is represented by `ll` itself: the
  element registered under `key` is the element of `ll` whose entry carries `key`
  (every write to the map in lru.go is paired with the matching `PushFront` or
  `Remove` on `ll`).
* `OnEvicted` tells whether a callback is registered; `evicted` is the sequence of
  argument pairs the callback has been invoked with, oldest first. -/
structure Cache (V : Type) where
  maxBytes : Int
  nbytes : Int
  ll : List (entry V)
  OnEvicted : Bool
  evicted : List (String × V)
deriving DecidableEq, Repr

variable {V : Type}

/-- The constructor `New(maxBytes, onEvicted)`. -/
def New (maxBytes : Int) (onEvicted : Bool) : Cache V :=
  { maxBytes := maxBytes, nbytes := 0, ll := [], OnEvicted := onEvicted, evicted := [] }

/-- The map lookup `c.cache[key]`: the list element registered under `key`. -/
def lookup (ll : List (entry V)) (key : String) : Option (entry V) :=
  ll.find? (fun e => decide (e.key = key))

/-- The list operation `ll.Remove(ele)` for the element registered under `key`. -/
def remove (ll : List (entry V)) (key : String) : List (entry V) :=
  ll.eraseP (fun e => decide (e.key = key))

/-- The list operation `ll.MoveToBack(ele)`. -/
def MoveToBack (ll : List (entry V)) (ele : entry V) : List (entry V) :=
  remove ll ele.key ++ [ele]

/-- The list operation `ll.MoveToFront(ele)`. -/
def MoveToFront (ll : List (entry V)) (ele : entry V) : List (entry V) :=
  ele :: remove ll ele.key

/-- The method `Cache.Get`: on a hit the element is moved to the back of the list. -/
def Cache.Get (c : Cache V) (key : String) : Option V × Cache V :=
  match lookup c.ll key with
  | some ele => (some ele.value, { c with ll := MoveToBack c.ll ele })
  | none => (none, c)

/-- The size `len(kv.key) + kv.value.Len()` of an entry. -/
def entry.size [Value V] (kv : entry V) : Int :=
  (strLen kv.key : Int) + (Value.Len kv.value : Int)

/-- The method `Cache.RemoveOldest`: drops the element at the back of the list. -/
def Cache.RemoveOldest [Value V] (c : Cache V) : Cache V :=
  match c.ll.getLast? with
  | some kv =>
    { c with
      ll := c.ll.dropLast
      nbytes := c.nbytes - kv.size
      evicted := if c.OnEvicted then c.evicted ++ [(kv.key, kv.value)] else c.evicted }
  | none => c

/-- The loop `for c.maxBytes != 0 && c.maxBytes < c.nbytes { c.RemoveOldest() }`. -/
def evictLoop [Value V] : Nat → Cache V → Option (Cache V)
  | 0, _ => none
  | fuel + 1, c =>
    if c.maxBytes ≠ 0 ∧ c.maxBytes < c.nbytes then evictLoop fuel c.RemoveOldest
    else some c

/-- The two branches of `Cache.Add` before the eviction loop. -/
def Cache.insert [Value V] (c : Cache V) (key : String) (value : V) : Cache V :=
  match lookup c.ll key with
  | some ele =>
    { c with
      ll := MoveToFront c.ll { ele with value := value }
      nbytes := c.nbytes + ((Value.Len value : Int) - (Value.Len ele.value : Int)) }
  | none =>
    { c with
      ll := { key := key, value := value } :: c.ll
      nbytes := c.nbytes + ((strLen key : Int) + (Value.Len value : Int)) }

/-- The method `Cache.Add`. -/
def Cache.Add [Value V] (fuel : Nat) (c : Cache V) (key : String) (value : V) :
    Option (Cache V) :=
  evictLoop fuel (c.insert key value)

/-- The method `Cache.Len`. -/
def Cache.Len (c : Cache V) : Nat := c.ll.length

/-- A call of one of the mutating methods of the cache. -/
inductive Op (V : Type) where
  | add (key : String) (value : V)
  | get (key : String)
  | removeOldest

/-- Performs one call; `none` when the call does not return within `fuel`. -/
def step [Value V] (fuel : Nat) (c : Cache V) : Op V → Option (Cache V)
  | .add key value => c.Add fuel key value
  | .get key => some (c.Get key).2
  | .removeOldest => some c.RemoveOldest

/-- Performs a sequence of calls, left to right. -/
def run [Value V] (fuel : Nat) (c : Cache V) : List (Op V) → Option (Cache V)
  | [] => some c
  | op :: ops => (step fuel c op).bind (fun c1 => run fuel c1 ops)

/-- The sequence of `Add` calls for a list of key/value pairs. -/
def adds (kvs : List (String × V)) : List (Op V) :=
  kvs.map (fun kv => Op.add kv.1 kv.2)

/-- The sum of `len(key) + value.Len()` over the entries held. -/
def sizeSum [Value V] (ll : List (entry V)) : Int :=
  (ll.map entry.size).sum

/-- The accounting invariant: the byte counter is the sum of the entry sizes. -/
def Accounted [Value V] (c : Cache V) : Prop := c.nbytes = sizeSum c.ll

/-- No value of the list reports a negative length. -/
def NonNegLen [Value V] (ll : List (entry V)) : Prop :=
  ∀ e, e ∈ ll → 0 ≤ Value.Len e.value

/-- The keys of the entries held, front first. -/
def keys (ll : List (entry V)) : List String := ll.map entry.key

/-- No two entries of the list carry the same key (as the index map of lru.go, which
holds one element per key, guarantees). -/
def DistinctKeys (c : Cache V) : Prop := (keys c.ll).Nodup

/-- The cache holding "b" (at the front) and "a" (at the back), unlimited size: the
state after `New(0, nil)`, `Add("a", "1")`, `Add("b", "2")`. -/
def cacheBA : Cache String :=
  { maxBytes := 0, nbytes := 4,
    ll := [{ key := "b", value := "2" }, { key := "a", value := "1" }],
    OnEvicted := false, evicted := [] }

end lru

namespace consistenthash

/-- The type `Hash func(data []byte) uint32`, applied to the bytes of a string; the
`uint32` result is a natural number. -/
abbrev Hash := String → Nat

/-- One bit step of the reflected CRC-32 (polynomial 0xEDB88320). -/
def crcStep (crc : Nat) : Nat :=
  if crc % 2 = 1 then (crc / 2) ^^^ 0xEDB88320 else crc / 2

/-- One byte step of the CRC-32. -/
def crcByte (crc : Nat) (b : UInt8) : Nat :=
  crcStep^[8] (crc ^^^ b.toNat)

/-- The library function `crc32.ChecksumIEEE`, the default hash of the ring. -/
def ChecksumIEEE : Hash := fun s =>
  (s.toUTF8.data.toList.foldl crcByte 0xFFFFFFFF) ^^^ 0xFFFFFFFF

/-- The struct `Map` of consisitenthash.go; `hashMap` is the Go map from virtual-node
hash to node, `none` where the map has no entry. -/
structure Map where
  hash : Hash
  replicas : Int
  keys : List Int
  hashMap : Int → Option String

/-- The constructor `New(replicas, fn)`; `fn = none` is Go's `nil`. -/
def New (replicas : Int) (fn : Option Hash) : Map :=
  { replicas := replicas
    hash := match fn with
      | some f => f
      | none => ChecksumIEEE
    keys := []
    hashMap := fun _ => none }

/-- The map store `m[k] = v`. -/
def store (hm : Int → Option String) (k : Int) (v : String) : Int → Option String :=
  fun x => if x = k then some v else hm x

/-- The map read `m[k]`, the empty string where there is no entry. -/
def load (hm : Int → Option String) (k : Int) : String :=
  (hm k).getD ""

/-- The body of the inner loop of `Map.Add`: one virtual node of `key`. -/
def addReplica (key : String) (m : Map) (i : Nat) : Map :=
  let hash : Int := (m.hash (toString i ++ key) : Nat)
  { m with keys := m.keys ++ [hash], hashMap := store m.hashMap hash key }

/-- The inner loop `for i := 0; i < m.replicas; i++` of `Map.Add`. -/
def addNode (m : Map) (key : String) : Map :=
  (List.range m.replicas.toNat).foldl (addReplica key) m

/-- The library function `sort.Ints`: ascending order. -/
def sortInts (xs : List Int) : List Int :=
  xs.insertionSort (fun a b => a ≤ b)

/-- The method `Map.Add(keys ...string)`. -/
def Map.Add (m : Map) (keys : List String) : Map :=
  let m1 := keys.foldl addNode m
  { m1 with keys := sortInts m1.keys }

/-- The loop of the library function `sort.Search`: binary search on `[i, j)`; the
first argument bounds the number of rounds. -/
def searchLoop (f : Nat → Bool) : Nat → Nat → Nat → Nat
  | 0, i, _ => i
  | fuel + 1, i, j =>
    if i < j then
      let h := (i + j) / 2
      if !f h then searchLoop f fuel (h + 1) j else searchLoop f fuel i h
    else i

/-- The library function `sort.Search(n, f)`.  Each round shrinks `j - i`, so `n`
rounds are never exceeded. -/
def Search (n : Nat) (f : Nat → Bool) : Nat :=
  searchLoop f n 0 n

/-- The method `Map.Get`. -/
def Map.Get (m : Map) (key : String) : String :=
  if m.keys.length = 0 then ""
  else
    let hash : Int := (m.hash key : Nat)
    let idx := Search m.keys.length (fun i => decide (m.keys.getD i 0 ≥ hash))
    load m.hashMap (m.keys.getD (idx % m.keys.length) 0)

/-- The ring obtained from `New(replicas, fn)` by a sequence of `Add` calls. -/
def ring (replicas : Int) (fn : Option Hash) (calls : List (List String)) : Map :=
  calls.foldl Map.Add (New replicas fn)

/-- The lookup as the specification words it: nothing on an empty ring; otherwise the
node of the smallest virtual-node hash that is at least the key's hash, and when
there is none, the node of the smallest virtual-node hash of the ring. -/
def Map.specGet (m : Map) (key : String) : String :=
  if m.keys = [] then ""
  else
    match (m.keys.filter (fun h => decide (((m.hash key : Nat) : Int) ≤ h))).min? with
    | some h => load m.hashMap h
    | none => load m.hashMap (m.keys.min?.getD 0)

/-- The virtual-node hashes `hash(strconv.Itoa(i) + key)`, `0 <= i < replicas`, that
`Map.Add` computes for the node `key`, in the order of the loop. -/
def vnodes (hash : Hash) (replicas : Int) (key : String) : List Int :=
  (List.range replicas.toNat).map (fun i => ((hash (toString i ++ key) : Nat) : Int))

end consistenthash

namespace singleflight

/-- A Go `error` value, identified by its message. -/
abbrev Error := String

/-- The struct `call` of singleflight.go: `done` tells that the wait group has been
released (`wg.Done()`); `val` and `err` are the stored result, both `nil` (`none`) in
the record `new(call)` until the leader stores what `fn` returned. -/
structure call (α : Type) where
  done : Bool
  val : Option α
  err : Option Error

/-- The struct `Group` of singleflight.go: `m` is the map of calls in flight, `none`
while the map is still `nil`. -/
structure Group (α : Type) where
  m : Option (List (String × call α))

/-- The map read `g.m[key]`. -/
def find {α : Type} (m : List (String × call α)) (key : String) : Option (call α) :=
  (m.find? (fun kc => decide (kc.1 = key))).map Prod.snd

/-- The map update `delete(g.m, key)`. -/
def delete {α : Type} (m : List (String × call α)) (key : String) : List (String × call α) :=
  m.filter (fun kc => !decide (kc.1 = key))

/-- The map store `g.m[key] = c`: the record becomes the one entry under `key`. -/
def store {α : Type} (m : List (String × call α)) (key : String) (c : call α) :
    List (String × call α) :=
  (key, c) :: m.filter (fun kc => !decide (kc.1 = key))

/-- The registration of a new call: `c := new(call)`, `c.wg.Add(1)`, `g.m[key] = c`. -/
def register {α : Type} (m : List (String × call α)) (key : String) :
    List (String × call α) :=
  store m key { done := false, val := none, err := none }

/-- The completion of the call registered under `key`: `c.val, c.err = fn()` stores
the result `r` of `fn` into the record, which the map holds by pointer, and
`c.wg.Done()` releases the wait group. -/
def complete {α : Type} (m : List (String × call α)) (key : String)
    (r : α × Option Error) : List (String × call α) :=
  store m key { done := true, val := some r.1, err := r.2 }

/-- The first critical section of `Group.Do` (from `g.mu.Lock()` to the `Unlock` that
follows the map check): the map is created if it is `nil`; a record found under `key`
is handed to the caller, who is then a waiter; otherwise a new call is registered
under `key` and the caller is its leader (`none`). -/
def Group.enter {α : Type} (g : Group α) (key : String) : Option (call α) × Group α :=
  let m := g.m.getD []
  match find m key with
  | some c => (some c, { m := some m })
  | none => (none, { m := some (register m key) })

/-- The end of `Group.Do` for the leader: the result `r` of `fn` is stored into the
record and the wait group released, then, under the lock, `delete(g.m, key)`. -/
def Group.leave {α : Type} (g : Group α) (key : String) (r : α × Option Error) : Group α :=
  { m := some (delete (complete (g.m.getD []) key r) key) }

/-- The method `Group.Do` as executed by one goroutine.  `fn` acts on a state `σ`
outside the coalescer and may fail to return (`none`).  A waiter waits on the wait
group of the record it found (`c.wg.Wait()`): it does not return while the call is not
done, and once it is done it returns the stored `c.val, c.err` (a released record
holds the value its leader stored).  The leader runs `fn` while its record is
registered, stores the result, deletes the record and returns `c.val, c.err`. -/
def Group.Do {α σ : Type} (g : Group α) (key : String)
    (fn : σ → Option ((α × Option Error) × σ)) (s : σ) :
    Option ((α × Option Error) × σ × Group α) :=
  match g.enter key with
  | (some c, g1) =>
    if c.done then c.val.map (fun v => ((v, c.err), s, g1)) else none
  | (none, g1) =>
    match fn s with
    | none => none
    | some (r, s1) => some (r, s1, g1.leave key r)

end singleflight

namespace geecache

open singleflight (Error)

/-- Modelled from the spec: the immutable value view `ByteView` (byteview.go is not
among the sources), an owned copy of a byte payload whose size is its byte length. -/
structure ByteView where
  b : List UInt8
deriving DecidableEq, Repr

instance : lru.Value ByteView := ⟨fun v => (v.b.length : Int)⟩

/-- Modelled from the spec: `cloneBytes`, the owned copy taken of the source's bytes. -/
def cloneBytes (b : List UInt8) : List UInt8 := b

/-- Modelled from the spec: the Group's local cache `cache` (cache.go is not among the
sources): the eviction cache of lru.go behind the Group's lock, created with the
configured `cacheBytes` and no eviction callback when the first entry is added. -/
structure cache where
  cacheBytes : Int
  lru : Option (lru.Cache ByteView)

/-- Modelled from the spec: `cache.add`, the `Add` of the eviction cache. -/
def cache.add (fuel : Nat) (c : cache) (key : String) (value : ByteView) : Option cache :=
  let l := match c.lru with
    | some l => l
    | none => lru.New c.cacheBytes false
  (l.Add fuel key value).map (fun l1 => { c with lru := some l1 })

/-- Modelled from the spec: `cache.get`, the `Get` of the eviction cache. -/
def cache.get (c : cache) (key : String) : Option ByteView × cache :=
  match c.lru with
  | none => (none, c)
  | some l => ((l.Get key).1, { c with lru := some (l.Get key).2 })

/-- The interface `Getter`: the local source `Get(key) ([]byte, error)`. -/
abbrev Getter := String → Except Error (List UInt8)

/-- The message `pb.Request`. -/
structure Request where
  Group : String
  Key : String
deriving DecidableEq, Repr

/-- The message `pb.Response`. -/
structure Response where
  Value : List UInt8
deriving DecidableEq, Repr

/-- The interface `PeerGetter`: `Get(in, out) error` fills `out` or fails. -/
structure PeerGetter where
  Get : Request → Except Error Response

/-- The interface `PeerPicker`: `PickPeer(key) (peer, ok)`. -/
structure PeerPicker where
  PickPeer : String → Option PeerGetter

/-- The calls a Group makes to its collaborators. -/
inductive Event where
  | cacheGet (key : String)
  | cacheAdd (key : String)
  | loaderDo (key : String)
  | pickPeer (key : String)
  | peerGet (req : Request)
  | getterGet (key : String)
deriving DecidableEq, Repr

/-- The struct `Group` of geecache.go; `trace` records the calls made to the
collaborators so far, oldest first. -/
structure Group where
  name : String
  getter : Getter
  mainCache : cache
  peers : Option PeerPicker
  loader : singleflight.Group ByteView
  trace : List Event

/-- The constructor `NewGroup`; `none` is the panic on a nil getter. -/
def NewGroup (name : String) (cacheBytes : Int) (getter : Option Getter) : Option Group :=
  match getter with
  | none => none
  | some f =>
    some { name := name, getter := f, mainCache := { cacheBytes := cacheBytes, lru := none },
           peers := none, loader := { m := none }, trace := [] }

/-- The method `RegisterPeers`; `none` is the panic on a second registration. -/
def Group.RegisterPeers (g : Group) (peers : PeerPicker) : Option Group :=
  match g.peers with
  | some _ => none
  | none => some { g with peers := some peers }

/-- The method `populateCache`. -/
def Group.populateCache (fuel : Nat) (g : Group) (key : String) (value : ByteView) :
    Option Group :=
  (g.mainCache.add fuel key value).map
    (fun c => { g with mainCache := c, trace := g.trace ++ [Event.cacheAdd key] })

/-- The method `getLocally`. -/
def Group.getLocally (fuel : Nat) (g : Group) (key : String) :
    Option ((ByteView × Option Error) × Group) :=
  let g1 := { g with trace := g.trace ++ [Event.getterGet key] }
  match g.getter key with
  | .error err => some ((ByteView.mk [], some err), g1)
  | .ok bytes =>
    let value := ByteView.mk (cloneBytes bytes)
    (g1.populateCache fuel key value).map (fun g2 => ((value, none), g2))

/-- The method `getFromPeer`. -/
def Group.getFromPeer (g : Group) (peer : PeerGetter) (key : String) :
    (ByteView × Option Error) × Group :=
  let req : Request := { Group := g.name, Key := key }
  let g1 := { g with trace := g.trace ++ [Event.peerGet req] }
  match peer.Get req with
  | .error err => ((ByteView.mk [], some err), g1)
  | .ok res => ((ByteView.mk res.Value, none), g1)

/-- The closure passed to `loader.Do` in `load`.  Its state is the Group together with
the named result `value` of `load`, which the closure assigns. -/
def Group.loadFn (fuel : Nat) (key : String) (s : Group × ByteView) :
    Option ((ByteView × Option Error) × (Group × ByteView)) :=
  let g := s.1
  match g.peers with
  | none => (g.getLocally fuel key).map (fun r => (r.1, (r.2, s.2)))
  | some peers =>
    let g1 := { g with trace := g.trace ++ [Event.pickPeer key] }
    match peers.PickPeer key with
    | none => (g1.getLocally fuel key).map (fun r => (r.1, (r.2, s.2)))
    | some peer =>
      match g1.getFromPeer peer key with
      | ((value, none), g2) => some ((value, none), (g2, value))
      | ((value, some _), g2) => (g2.getLocally fuel key).map (fun r => (r.1, (r.2, value)))

/-- The method `load`. -/
def Group.load (fuel : Nat) (g : Group) (key : String) :
    Option ((ByteView × Option Error) × Group) :=
  let g1 := { g with trace := g.trace ++ [Event.loaderDo key] }
  match g.loader.Do key (Group.loadFn fuel key) (g1, ByteView.mk []) with
  | none => none
  | some ((viewi, none), (g2, _), loader) => some ((viewi, none), { g2 with loader := loader })
  | some ((_, some err), (g2, value), loader) =>
    some ((value, some err), { g2 with loader := loader })

/-- The method `Group.Get`. -/
def Group.Get (fuel : Nat) (g : Group) (key : String) :
    Option ((ByteView × Option Error) × Group) :=
  if key = "" then some ((ByteView.mk [], some "key is required"), g)
  else
    let g1 := { g with mainCache := (g.mainCache.get key).2,
                       trace := g.trace ++ [Event.cacheGet key] }
    match (g.mainCache.get key).1 with
    | some v => some ((v, none), g1)
    | none => g1.load fuel key

/-- The Group's local cache is in a state the eviction cache can be in: once created
it carries the configured limit, its byte counter is the sum of its entry sizes and
it has no eviction callback. -/
def Group.WF (g : Group) : Prop :=
  ∀ l, g.mainCache.lru = some l →
    l.maxBytes = g.mainCache.cacheBytes ∧ lru.Accounted l

/-- The sequential invariant of a Group without peers: a well-formed local cache with
a non-negative limit, and no call in flight in the coalescer. -/
def Group.Quiet (g : Group) : Prop :=
  g.WF ∧ g.peers = none ∧ g.loader.m.getD [] = [] ∧ 0 ≤ g.mainCache.cacheBytes

/-- No call for `key` is in flight in the Group's coalescer. -/
def Group.Idle (g : Group) (key : String) : Prop :=
  singleflight.find (g.loader.m.getD []) key = none

/-- The number of invocations of the local source recorded in a trace. -/
def sourceCalls (trace : List Event) : Nat :=
  trace.countP (fun e => match e with
    | Event.getterGet _ => true
    | _ => false)

/-- A sequence of `Get` calls on a Group, left to right, results discarded; `none`
when one of the calls does not return within `fuel`. -/
def gets (fuel : Nat) (g : Group) : List String → Option Group
  | [] => some g
  | key :: keys => (g.Get fuel key).bind (fun r => gets fuel r.2 keys)

/-- The number of entries the Group's local cache holds. -/
def Group.held (g : Group) : Nat :=
  match g.mainCache.lru with
  | none => 0
  | some l => l.Len

/-- The source of the spec's example: "k1" maps to "v1", every other key fails. -/
def exampleSource : Getter := fun key =>
  if key = "k1" then .ok [118, 49] else .error "no such key"

/-- A peer whose fetch succeeds with "v2". -/
def peerOK : PeerGetter := { Get := fun _ => .ok { Value := [118, 50] } }

/-- A peer whose fetch fails. -/
def peerDown : PeerGetter := { Get := fun _ => .error "connection refused" }

/-- A Group as `NewGroup(name, cacheBytes, exampleSource)` creates it, with the peer
picker that always picks `peer` registered. -/
def exampleGroup (cacheBytes : Int) (peer : Option PeerGetter) : Group :=
  { name := "scores", getter := exampleSource,
    mainCache := { cacheBytes := cacheBytes, lru := none },
    peers := peer.map (fun p => { PickPeer := fun _ => some p }),
    loader := { m := none }, trace := [] }

end geecache

namespace geecache

/-- No peer is picked for `key`: no peer picker is registered, or `PickPeer(key)`
answers `ok = false`. -/
def Group.NoPeer (g : Group) (key : String) : Prop :=
  match g.peers with
  | none => True
  | some peers => peers.PickPeer key = none

end geecache

namespace consistenthash

/-- All virtual-node hashes computed by a sequence of `Add` calls on a ring created by
`New(replicas, fn)`, in the order in which they are appended (a node added twice
contributes twice). -/
def allVnodes (replicas : Int) (fn : Option Hash) (calls : List (List String)) : List Int :=
  calls.flatten.flatMap (vnodes (New replicas fn).hash replicas)

/-- The index `idx` that `Map.Get` obtains from `sort.Search`. -/
def Map.idx (m : Map) (key : String) : Nat :=
  Search m.keys.length (fun i => decide (m.keys.getD i 0 ≥ ((m.hash key : Nat) : Int)))

end consistenthash

namespace geecache

/-- The constant `defaultBasePath` of http.go. -/
def defaultBasePath : String := "/_geecache/"

/-- The constant `defaultReplicas` of http.go. -/
def defaultReplicas : Int := 50

/-- The struct `httpGetter` of http.go. -/
structure httpGetter where
  baseURL : String
deriving DecidableEq, Repr

/-- The struct `HTTPPool` of http.go (its mutex left out).  `peers` is the pointer to
the ring, `none` while it is `nil`; `httpGetters` is the Go map from peer to getter,
`none` where the map has no entry (also while the map is `nil`). -/
structure HTTPPool where
  self : String
  basePath : String
  peers : Option consistenthash.Map
  httpGetters : String → Option httpGetter

/-- The constructor `NewHTTPPool(self)`: `peers` and `httpGetters` are left `nil`. -/
def NewHTTPPool (self : String) : HTTPPool :=
  { self := self, basePath := defaultBasePath, peers := none, httpGetters := fun _ => none }

/-- The map store `p.httpGetters[peer] = &httpGetter{baseURL: peer + p.basePath}`. -/
def setGetter (basePath : String) (hg : String → Option httpGetter) (peer : String) :
    String → Option httpGetter :=
  fun x => if x = peer then some { baseURL := peer ++ basePath } else hg x

/-- The method `HTTPPool.Set(peers ...string)`. -/
def HTTPPool.Set (p : HTTPPool) (peers : List String) : HTTPPool :=
  { p with
    peers := some ((consistenthash.New defaultReplicas none).Add peers)
    httpGetters := peers.foldl (setGetter p.basePath) (fun _ => none) }

/-- The method `HTTPPool.PickPeer(key)`.  The outer `none` is the run-time panic of
`p.peers.Get(key)` when `p.peers` is `nil`: `Map.Get` reads `m.keys` through the nil
pointer.  Otherwise the result is the pair `(getter, ok)`, the getter being the map
read `p.httpGetters[peer]`. -/
def HTTPPool.PickPeer (p : HTTPPool) (key : String) : Option (Option httpGetter × Bool) :=
  match p.peers with
  | none => none
  | some m =>
    let peer := m.Get key
    if peer ≠ "" ∧ peer ≠ p.self then some (p.httpGetters peer, true)
    else some (none, false)

end geecache

namespace singleflight

/-- A function `fn` passed to `Do`, instrumented with a counter of its invocations. -/
def counted {ρ σ : Type} (fn : σ → Option (ρ × σ)) : σ × Nat → Option (ρ × (σ × Nat)) :=
  fun s => (fn s.1).map (fun r => (r.1, (r.2, s.2 + 1)))

end singleflight

namespace lru

/-- The three `Add` calls of the ordering example: ("a", "1"), ("b", "2") and
("c", "3456789012345"), of sizes 2, 2 and 14. -/
def abcAdds : List (Op String) :=
  [Op.add "a" "1", Op.add "b" "2", Op.add "c" "3456789012345"]

/-- The cache with limit 20 and a callback after the three calls of `abcAdds`: all
three entries held, no callback invocation. -/
def cacheABC20 : Cache String :=
  { maxBytes := 20, nbytes := 18,
    ll := [{ key := "c", value := "3456789012345" }, { key := "b", value := "2" },
           { key := "a", value := "1" }],
    OnEvicted := true, evicted := [] }

/-- The cache with limit 17 and a callback after the three calls of `abcAdds`: "a" has
been evicted and handed to the callback. -/
def cacheABC17 : Cache String :=
  { maxBytes := 17, nbytes := 16,
    ll := [{ key := "c", value := "3456789012345" }, { key := "b", value := "2" }],
    OnEvicted := true, evicted := [("a", "1")] }

/-- The cache with limit 15 and a callback after the three calls of `abcAdds`: "a" and
then "b" have been evicted. -/
def cacheABC15 : Cache String :=
  { maxBytes := 15, nbytes := 14,
    ll := [{ key := "c", value := "3456789012345" }],
    OnEvicted := true, evicted := [("a", "1"), ("b", "2")] }

end lru

namespace lru

/-- The cache `New(-1, nil)` after `Add("a", v)` with a value `v` reporting the
length -5: the entry is held and the byte counter is -4. -/
def cacheNegA : Cache reported :=
  { maxBytes := -1, nbytes := -4, ll := [{ key := "a", value := { n := -5 } }],
    OnEvicted := false, evicted := [] }

/-- The calls that lead `New(-1, nil)` to `cacheNegB`: two values reporting -5 and 2,
then a removal of the older one. -/
def negOps : List (Op reported) :=
  [Op.add "a" { n := -5 }, Op.add "b" { n := 2 }, Op.removeOldest]

/-- The cache `New(-1, nil)` after `negOps`: a negative limit, one entry held, no
value held reporting a negative length. -/
def cacheNegB : Cache reported :=
  { maxBytes := -1, nbytes := 3, ll := [{ key := "b", value := { n := 2 } }],
    OnEvicted := false, evicted := [] }

/-- The cache `New(5, nil)` after `Add("x", v)` with a value `v` reporting the
length -10. -/
def cacheX : Cache reported :=
  { maxBytes := 5, nbytes := -9, ll := [{ key := "x", value := { n := -10 } }],
    OnEvicted := false, evicted := [] }

/-- The cache `cacheX` after `Add("k", w)` with a value `w` reporting the length 6:
both entries are held. -/
def cacheXK : Cache reported :=
  { maxBytes := 5, nbytes := -2,
    ll := [{ key := "k", value := { n := 6 } }, { key := "x", value := { n := -10 } }],
    OnEvicted := false, evicted := [] }

/-- The two `Add` calls that lead `New(3, nil)` to `cacheB3`. -/
def abAdds : List (Op String) := [Op.add "a" "1", Op.add "b" "2"]

/-- The cache `New(3, nil)` after `abAdds`: "a" has been evicted, "b" is held. -/
def cacheB3 : Cache String :=
  { maxBytes := 3, nbytes := 2, ll := [{ key := "b", value := "2" }],
    OnEvicted := false, evicted := [] }

end lru

namespace singleflight

/-- A coalescer in which a call for the key "j" is in flight. -/
def busyGroup : Group Nat :=
  { m := some [("j", { done := false, val := none, err := none })] }

end singleflight

/-! # Properties -/

/-! ## Eviction cache: byte accounting and the eviction bound -/

namespace lru

variable {V : Type}

theorem sizeSum_nil [Value V] : sizeSum ([] : List (entry V)) = 0 := rfl

theorem sizeSum_cons [Value V] (e : entry V) (ll : List (entry V)) :
    sizeSum (e :: ll) = e.size + sizeSum ll := by
  simp [sizeSum]

theorem sizeSum_append [Value V] (xs ys : List (entry V)) :
    sizeSum (xs ++ ys) = sizeSum xs + sizeSum ys := by
  simp [sizeSum]

theorem sizeSum_dropLast [Value V] (ll : List (entry V)) (kv : entry V)
    (h : ll.getLast? = some kv) : sizeSum ll.dropLast = sizeSum ll - kv.size := by
  have hne : ll ≠ [] := by
    intro hnil
    simp [hnil] at h
  have hlast : ll.getLast hne = kv := by
    rw [List.getLast?_eq_getLast ll hne] at h
    exact Option.some.inj h
  have hsplit : ll.dropLast ++ [kv] = ll := by
    rw [← hlast]
    exact List.dropLast_append_getLast hne
  have hsum : sizeSum ll = sizeSum ll.dropLast + kv.size := by
    conv_lhs => rw [← hsplit]
    rw [sizeSum_append, sizeSum_cons, sizeSum_nil]
    ring
  omega

theorem sizeSum_remove [Value V] (ll : List (entry V)) (key : String) (e : entry V)
    (h : lookup ll key = some e) : sizeSum (remove ll key) = sizeSum ll - e.size := by
  induction ll with
  | nil => simp [lookup] at h
  | cons x xs ih =>
    by_cases hx : x.key = key
    · have hxe : x = e := by
        simpa [lookup, List.find?_cons, hx] using h
      subst hxe
      simp [remove, List.eraseP_cons, hx, sizeSum_cons]
    · have hrest : lookup xs key = some e := by
        simpa [lookup, List.find?_cons, hx] using h
      have hrem : remove (x :: xs) key = x :: remove xs key := by
        simp [remove, List.eraseP_cons, hx]
      rw [hrem, sizeSum_cons, sizeSum_cons, ih hrest]
      ring

theorem lookup_key (ll : List (entry V)) (key : String) (e : entry V)
    (h : lookup ll key = some e) : e.key = key := by
  have := List.find?_some h
  simpa using this

theorem accounted_New [Value V] (maxBytes : Int) (cb : Bool) :
    Accounted (New maxBytes cb : Cache V) := by
  simp [Accounted, New, sizeSum]

theorem accounted_Get [Value V] (c : Cache V) (key : String) (h : Accounted c) :
    Accounted (c.Get key).2 := by
  unfold Cache.Get
  cases hl : lookup c.ll key with
  | none => simpa using h
  | some ele =>
    have hk := lookup_key c.ll key ele hl
    have hs := sizeSum_remove c.ll key ele hl
    simp only [Accounted, MoveToBack, sizeSum_append, sizeSum_cons, sizeSum_nil, hk, hs]
    rw [h]
    ring

theorem accounted_RemoveOldest [Value V] (c : Cache V) (h : Accounted c) :
    Accounted c.RemoveOldest := by
  unfold Cache.RemoveOldest
  cases hl : c.ll.getLast? with
  | none => simpa using h
  | some kv =>
    simp only [Accounted, sizeSum_dropLast c.ll kv hl]
    rw [h]

theorem accounted_insert [Value V] (c : Cache V) (key : String) (value : V)
    (h : Accounted c) : Accounted (c.insert key value) := by
  unfold Cache.insert
  cases hl : lookup c.ll key with
  | none =>
    simp only [Accounted, sizeSum_cons, entry.size]
    rw [h]
    ring
  | some ele =>
    have hs := sizeSum_remove c.ll key ele hl
    have hk := lookup_key c.ll key ele hl
    simp only [Accounted, MoveToFront, sizeSum_cons, hk, hs, entry.size]
    rw [h]
    ring

theorem accounted_evictLoop [Value V] (fuel : Nat) (c c1 : Cache V) (h : Accounted c)
    (hrun : evictLoop fuel c = some c1) : Accounted c1 := by
  induction fuel generalizing c with
  | zero => simp [evictLoop] at hrun
  | succ n ih =>
    unfold evictLoop at hrun
    split at hrun
    · exact ih c.RemoveOldest (accounted_RemoveOldest c h) hrun
    · cases hrun
      exact h

theorem accounted_step [Value V] (fuel : Nat) (c c1 : Cache V) (op : Op V)
    (h : Accounted c) (hrun : step fuel c op = some c1) : Accounted c1 := by
  cases op with
  | add key value =>
    exact accounted_evictLoop fuel _ c1 (accounted_insert c key value h) hrun
  | get key =>
    simp only [step, Option.some.injEq] at hrun
    rw [← hrun]
    exact accounted_Get c key h
  | removeOldest =>
    simp only [step, Option.some.injEq] at hrun
    rw [← hrun]
    exact accounted_RemoveOldest c h

theorem accounted_run [Value V] (fuel : Nat) (ops : List (Op V)) (c c1 : Cache V)
    (h : Accounted c) (hrun : run fuel c ops = some c1) : Accounted c1 := by
  induction ops generalizing c with
  | nil =>
    simp only [run, Option.some.injEq] at hrun
    rw [← hrun]
    exact h
  | cons op ops ih =>
    simp only [run] at hrun
    cases hs : step fuel c op with
    | none => simp [hs] at hrun
    | some c2 =>
      rw [hs] at hrun
      exact ih c2 (accounted_step fuel c c2 op h hs) hrun

end lru

namespace lru

variable {V : Type}

theorem length_RemoveOldest [Value V] (c : Cache V) :
    c.RemoveOldest.ll.length = c.ll.length - 1 := by
  unfold Cache.RemoveOldest
  cases hl : c.ll.getLast? with
  | none =>
    have : c.ll = [] := by simpa using hl
    simp [this]
  | some kv => simp

theorem maxBytes_RemoveOldest [Value V] (c : Cache V) :
    c.RemoveOldest.maxBytes = c.maxBytes := by
  unfold Cache.RemoveOldest
  cases c.ll.getLast? <;> rfl

/-- With a non-negative limit and an accounted counter the eviction loop stops after
at most one round per entry held. -/
theorem evictLoop_terminates [Value V] (fuel : Nat) (c : Cache V) (h : Accounted c)
    (hmax : 0 ≤ c.maxBytes) (hfuel : c.ll.length + 1 ≤ fuel) :
    ∃ c1, evictLoop fuel c = some c1 := by
  induction fuel generalizing c with
  | zero => omega
  | succ n ih =>
    unfold evictLoop
    split
    · rename_i hcond
      have hne : c.ll ≠ [] := by
        intro hnil
        have h0 : c.nbytes = 0 := by
          rw [h, hnil]
          rfl
        omega
      have hpos : 0 < c.ll.length := List.length_pos.mpr hne
      apply ih c.RemoveOldest (accounted_RemoveOldest c h)
      · rw [maxBytes_RemoveOldest]
        exact hmax
      · rw [length_RemoveOldest]
        omega
    · exact ⟨c, rfl⟩

theorem evictLoop_maxBytes [Value V] (fuel : Nat) (c c1 : Cache V)
    (hrun : evictLoop fuel c = some c1) : c1.maxBytes = c.maxBytes := by
  induction fuel generalizing c with
  | zero => simp [evictLoop] at hrun
  | succ n ih =>
    unfold evictLoop at hrun
    split at hrun
    · rw [ih c.RemoveOldest hrun, maxBytes_RemoveOldest]
    · cases hrun
      rfl

/-- On exit of the eviction loop the loop condition is false. -/
theorem evictLoop_exit [Value V] (fuel : Nat) (c c1 : Cache V)
    (hrun : evictLoop fuel c = some c1) :
    ¬ (c1.maxBytes ≠ 0 ∧ c1.maxBytes < c1.nbytes) := by
  induction fuel generalizing c with
  | zero => simp [evictLoop] at hrun
  | succ n ih =>
    unfold evictLoop at hrun
    split at hrun
    · exact ih c.RemoveOldest hrun
    · rename_i hcond
      cases hrun
      exact hcond

theorem evictLoop_length_le [Value V] (fuel : Nat) (c c1 : Cache V)
    (hrun : evictLoop fuel c = some c1) : c1.ll.length ≤ c.ll.length := by
  induction fuel generalizing c with
  | zero => simp [evictLoop] at hrun
  | succ n ih =>
    unfold evictLoop at hrun
    split at hrun
    · have := ih c.RemoveOldest hrun
      rw [length_RemoveOldest] at this
      omega
    · cases hrun
      exact le_refl _

theorem length_remove_le (ll : List (entry V)) (key : String) :
    (remove ll key).length ≤ ll.length := by
  unfold remove
  exact List.length_eraseP_le ll

theorem length_remove_of_lookup (ll : List (entry V)) (key : String) (e : entry V)
    (h : lookup ll key = some e) : (remove ll key).length + 1 = ll.length := by
  have hmem : e ∈ ll := List.mem_of_find?_eq_some h
  have hp : decide (e.key = key) = true := by
    have := lookup_key ll key e h
    simpa using this
  unfold remove
  rw [List.length_eraseP_of_mem hmem hp]
  have : 0 < ll.length := List.length_pos_of_mem hmem
  omega

theorem length_insert_le [Value V] (c : Cache V) (key : String) (value : V) :
    (c.insert key value).ll.length ≤ c.ll.length + 1 := by
  unfold Cache.insert
  cases hl : lookup c.ll key with
  | none => simp
  | some ele =>
    have := length_remove_le c.ll ele.key
    simp only [MoveToFront, List.length_cons]
    omega

theorem maxBytes_insert [Value V] (c : Cache V) (key : String) (value : V) :
    (c.insert key value).maxBytes = c.maxBytes := by
  unfold Cache.insert
  cases lookup c.ll key <;> rfl

theorem length_Get_snd (c : Cache V) (key : String) :
    (c.Get key).2.ll.length = c.ll.length := by
  unfold Cache.Get
  cases hl : lookup c.ll key with
  | none => rfl
  | some ele =>
    have hk := lookup_key c.ll key ele hl
    have := length_remove_of_lookup c.ll key ele hl
    simp only [MoveToBack, List.length_append, List.length_singleton, hk]
    omega

theorem maxBytes_Get_snd (c : Cache V) (key : String) :
    (c.Get key).2.maxBytes = c.maxBytes := by
  unfold Cache.Get
  cases lookup c.ll key <;> rfl

/-- Every call returns when the limit is non-negative and the fuel covers one round
per entry that can be held. -/
theorem step_returns [Value V] (fuel : Nat) (c : Cache V) (op : Op V) (h : Accounted c)
    (hmax : 0 ≤ c.maxBytes) (hfuel : c.ll.length + 2 ≤ fuel) :
    ∃ c1, step fuel c op = some c1 ∧ c1.maxBytes = c.maxBytes ∧
      c1.ll.length ≤ c.ll.length + 1 := by
  cases op with
  | add key value =>
    have hlen := length_insert_le c key value
    have hmb := maxBytes_insert c key value
    obtain ⟨c1, hc1⟩ := evictLoop_terminates fuel (c.insert key value)
      (accounted_insert c key value h) (by rw [hmb]; exact hmax) (by omega)
    refine ⟨c1, hc1, ?_, ?_⟩
    · rw [evictLoop_maxBytes fuel _ c1 hc1, hmb]
    · exact le_trans (evictLoop_length_le fuel _ c1 hc1) hlen
  | get key =>
    refine ⟨(c.Get key).2, rfl, maxBytes_Get_snd c key, ?_⟩
    rw [length_Get_snd]
    omega
  | removeOldest =>
    refine ⟨c.RemoveOldest, rfl, maxBytes_RemoveOldest c, ?_⟩
    rw [length_RemoveOldest]
    omega

theorem run_returns [Value V] (fuel : Nat) (ops : List (Op V)) (c : Cache V)
    (h : Accounted c) (hmax : 0 ≤ c.maxBytes)
    (hfuel : c.ll.length + ops.length + 1 ≤ fuel) :
    ∃ c1, run fuel c ops = some c1 := by
  induction ops generalizing c with
  | nil => exact ⟨c, rfl⟩
  | cons op ops ih =>
    simp only [List.length_cons] at hfuel
    obtain ⟨c2, hc2, hmb, hlen⟩ := step_returns fuel c op h hmax (by omega)
    obtain ⟨c3, hc3⟩ := ih c2 (accounted_step fuel c c2 op h hc2) (by rw [hmb]; exact hmax)
      (by omega)
    exact ⟨c3, by simp [run, hc2, hc3]⟩

theorem step_maxBytes [Value V] (fuel : Nat) (c c1 : Cache V) (op : Op V)
    (hrun : step fuel c op = some c1) : c1.maxBytes = c.maxBytes := by
  cases op with
  | add key value =>
    rw [evictLoop_maxBytes fuel _ c1 hrun, maxBytes_insert]
  | get key =>
    simp only [step, Option.some.injEq] at hrun
    rw [← hrun, maxBytes_Get_snd]
  | removeOldest =>
    simp only [step, Option.some.injEq] at hrun
    rw [← hrun, maxBytes_RemoveOldest]

theorem run_maxBytes [Value V] (fuel : Nat) (ops : List (Op V)) (c c1 : Cache V)
    (hrun : run fuel c ops = some c1) : c1.maxBytes = c.maxBytes := by
  induction ops generalizing c with
  | nil =>
    simp only [run, Option.some.injEq] at hrun
    rw [← hrun]
  | cons op ops ih =>
    simp only [run] at hrun
    cases hs : step fuel c op with
    | none => simp [hs] at hrun
    | some c2 =>
      rw [hs] at hrun
      rw [ih c2 hrun, step_maxBytes fuel c c2 op hs]

end lru

namespace lru

variable {V : Type}

theorem run_adds_bound [Value V] (fuel : Nat) (kvs : List (String × V)) (c c1 : Cache V)
    (hmax : 0 < c.maxBytes) (hc : c.nbytes ≤ c.maxBytes)
    (hrun : run fuel c (adds kvs) = some c1) : c1.nbytes ≤ c1.maxBytes := by
  induction kvs generalizing c with
  | nil =>
    simp only [adds, List.map_nil, run, Option.some.injEq] at hrun
    rw [← hrun]
    exact hc
  | cons kv kvs ih =>
    simp only [adds, List.map_cons, run] at hrun
    cases hs : step fuel c (Op.add kv.1 kv.2) with
    | none => simp [hs] at hrun
    | some c2 =>
      rw [hs] at hrun
      have hmb : c2.maxBytes = c.maxBytes := step_maxBytes fuel c c2 _ hs
      have hexit := evictLoop_exit fuel _ c2 hs
      apply ih c2 (by rw [hmb]; exact hmax) _ hrun
      by_contra hlt
      apply hexit
      constructor <;> omega

/-- C1 (eviction bound): on a cache created by `New` with `maxBytes > 0`, every finite
sequence of `Add` calls returns (fuel for one loop round per call suffices), and
after the last call of any such sequence the byte counter is at most `maxBytes`. -/
theorem C1_eviction_bound [Value V] (maxBytes : Int) (onEvicted : Bool)
    (kvs : List (String × V)) (hmax : 0 < maxBytes) :
    (∃ c : Cache V, run (kvs.length + 1) (New maxBytes onEvicted) (adds kvs) = some c) ∧
    ∀ (fuel : Nat) (c : Cache V),
      run fuel (New maxBytes onEvicted) (adds kvs) = some c → c.nbytes ≤ maxBytes := by
  constructor
  · apply run_returns _ _ _ (accounted_New maxBytes onEvicted)
    · exact le_of_lt hmax
    · simp [New, adds]
  · intro fuel c hrun
    have hb := run_adds_bound fuel kvs (New maxBytes onEvicted) c hmax (le_of_lt hmax) hrun
    rw [run_maxBytes fuel _ _ c hrun] at hb
    exact hb

/-- C1 at a concrete input: limit 3, two entries of two bytes each. -/
theorem C1_eviction_bound_witness :
    (0 : Int) < 3 ∧
    ((∃ c : Cache String,
        run 3 (New 3 false) (adds [("a", "1"), ("b", "2")]) = some c) ∧
      ∀ (fuel : Nat) (c : Cache String),
        run fuel (New 3 false) (adds [("a", "1"), ("b", "2")]) = some c → c.nbytes ≤ 3) :=
  ⟨by decide, C1_eviction_bound 3 false [("a", "1"), ("b", "2")] (by decide)⟩

/-- C2 (byte accounting): on a cache created by `New`, after any finite sequence of
`Add`, `Get` and `RemoveOldest` calls that has returned, the byte counter equals the
sum of `len(key) + value.Len()` over the entries held; and with a non-negative limit
every such sequence does return. -/
theorem C2_byte_accounting [Value V] (maxBytes : Int) (onEvicted : Bool)
    (ops : List (Op V)) :
    (∀ (fuel : Nat) (c : Cache V),
      run fuel (New maxBytes onEvicted) ops = some c → c.nbytes = sizeSum c.ll) ∧
    (0 ≤ maxBytes →
      ∃ c : Cache V, run (ops.length + 1) (New maxBytes onEvicted) ops = some c) := by
  constructor
  · intro fuel c hrun
    exact accounted_run fuel ops _ c (accounted_New maxBytes onEvicted) hrun
  · intro hmax
    apply run_returns _ _ _ (accounted_New maxBytes onEvicted) hmax
    simp [New]

/-- C2 at a concrete input: an overwrite with a longer value, a hit and a removal. -/
theorem C2_byte_accounting_witness :
    run 5 (New 0 false)
        [Op.add "a" "1", Op.add "b" "2", Op.add "a" "123", Op.get "b", Op.removeOldest]
      = some ({ maxBytes := 0, nbytes := 4, ll := [{ key := "a", value := "123" }],
                OnEvicted := false, evicted := [] } : Cache String) ∧
    (4 : Int) = sizeSum [({ key := "a", value := "123" } : entry String)] :=
  ⟨by decide,
    (C2_byte_accounting 0 false
      [Op.add "a" "1", Op.add "b" "2", Op.add "a" "123", Op.get "b", Op.removeOldest]).1
      5 { maxBytes := 0, nbytes := 4, ll := [{ key := "a", value := "123" }],
          OnEvicted := false, evicted := [] } (by decide)⟩

end lru

/-! ## Eviction cache: a hit followed by an eviction -/

namespace lru

variable {V : Type}

theorem lookup_eq_none_iff (ll : List (entry V)) (key : String) :
    lookup ll key = none ↔ key ∉ keys ll := by
  simp only [lookup, List.find?_eq_none, keys, List.mem_map, decide_eq_true_eq, not_exists,
    not_and]

theorem keys_remove_of_nodup (ll : List (entry V)) (key : String)
    (hnd : (keys ll).Nodup) : key ∉ keys (remove ll key) := by
  induction ll with
  | nil => simp [remove, keys]
  | cons x xs ih =>
    have hx : x.key ∉ keys xs ∧ (keys xs).Nodup := by
      simpa [keys] using hnd
    by_cases hk : x.key = key
    · have : remove (x :: xs) key = xs := by
        simp [remove, List.eraseP_cons, hk]
      rw [this, ← hk]
      exact hx.1
    · have : remove (x :: xs) key = x :: remove xs key := by
        simp [remove, List.eraseP_cons, hk]
      rw [this]
      have := ih hx.2
      simp only [keys, List.map_cons, List.mem_cons, not_or]
      exact ⟨fun h => hk h.symm, this⟩

theorem Get_miss (c : Cache V) (key : String) (h : lookup c.ll key = none) :
    c.Get key = (none, c) := by
  simp [Cache.Get, h]

theorem Get_hit (c : Cache V) (key : String) (e : entry V) (h : lookup c.ll key = some e) :
    c.Get key = (some e.value, { c with ll := MoveToBack c.ll e }) := by
  simp [Cache.Get, h]

/-- What lru.go does on a hit followed by `RemoveOldest`: `Get` moves the element to
the back of the list, which is the end `RemoveOldest` removes from, so the entry that
was just read is the one evicted and every other entry stays. -/
theorem Get_then_RemoveOldest [Value V] (c : Cache V) (key : String) (e : entry V)
    (hnd : DistinctKeys c) (hit : lookup c.ll key = some e) :
    (c.Get key).1 = some e.value ∧
    (c.Get key).2.RemoveOldest.ll = remove c.ll key ∧
    ((c.Get key).2.RemoveOldest.Get key).1 = none := by
  have hk := lookup_key c.ll key e hit
  have hll : (c.Get key).2.RemoveOldest.ll = remove c.ll key := by
    simp [Cache.Get, hit, MoveToBack, Cache.RemoveOldest, hk]
  refine ⟨by simp [Cache.Get, hit], hll, ?_⟩
  have hnone : lookup (remove c.ll key) key = none :=
    (lookup_eq_none_iff _ _).mpr (keys_remove_of_nodup c.ll key hnd)
  rw [Get_miss _ key (by rw [hll]; exact hnone)]

/-- C3 evaluated on the code: in the cache holding "b" (added last) and "a", the hit
`Get("b")` returns ("2", true), and the `RemoveOldest` that follows removes exactly
"b": afterwards `Get("b")` finds nothing while "a" is still held. -/
theorem C3_hit_entry_is_evicted_next :
    run 2 (New 0 false) [Op.add "a" "1", Op.add "b" "2"] = some cacheBA ∧
    (cacheBA.Get "b").1 = some "2" ∧
    ((cacheBA.Get "b").2.RemoveOldest.Get "b").1 = none ∧
    (cacheBA.Get "b").2.RemoveOldest.ll = [{ key := "a", value := "1" }] := by
  decide

end lru

/-! ## Hash ring: the lookup against its reference definition -/

namespace consistenthash

theorem int_min?_eq_some_iff (xs : List Int) (a : Int) :
    xs.min? = some a ↔ a ∈ xs ∧ ∀ b, b ∈ xs → a ≤ b := by
  haveI : Std.Antisymm (fun x y : Int => x ≤ y) := ⟨fun h1 h2 => le_antisymm h1 h2⟩
  apply List.min?_eq_some_iff
  · exact fun a => le_refl a
  · intro a b
    rcases le_total a b with h | h
    · left
      exact min_eq_left h
    · right
      exact min_eq_right h
  · intro a b c
    exact le_min_iff

/-- The binary search returns the boundary of a monotone predicate: everything
before the result is rejected and everything from the result on is accepted. -/
theorem searchLoop_spec (f : Nat → Bool) (n : Nat)
    (hmono : ∀ a b, a ≤ b → b < n → f a = true → f b = true)
    (fuel i j : Nat) (hij : i ≤ j) (hjn : j ≤ n) (hfuel : j - i ≤ fuel)
    (hlo : ∀ k, k < i → f k = false) (hhi : ∀ k, j ≤ k → k < n → f k = true) :
    i ≤ searchLoop f fuel i j ∧ searchLoop f fuel i j ≤ j ∧
    (∀ k, k < searchLoop f fuel i j → f k = false) ∧
    (∀ k, searchLoop f fuel i j ≤ k → k < n → f k = true) := by
  induction fuel generalizing i j with
  | zero =>
    have : i = j := by omega
    subst this
    simp only [searchLoop]
    exact ⟨le_refl _, le_refl _, hlo, hhi⟩
  | succ fuel ih =>
    unfold searchLoop
    by_cases hlt : i < j
    · simp only [hlt, if_true]
      have hh1 : i ≤ (i + j) / 2 := by omega
      have hh2 : (i + j) / 2 < j := by omega
      cases hf : f ((i + j) / 2) with
      | false =>
        simp only [Bool.not_false, if_true]
        have hlo2 : ∀ k, k < (i + j) / 2 + 1 → f k = false := by
          intro k hk
          cases hfk : f k with
          | false => rfl
          | true =>
            have := hmono k ((i + j) / 2) (by omega) (by omega) hfk
            rw [hf] at this
            exact absurd this (by simp)
        obtain ⟨h1, h2, h3, h4⟩ := ih ((i + j) / 2 + 1) j (by omega) hjn (by omega) hlo2 hhi
        exact ⟨by omega, h2, h3, h4⟩
      | true =>
        simp only [Bool.not_true, Bool.false_eq_true, if_false]
        have hhi2 : ∀ k, (i + j) / 2 ≤ k → k < n → f k = true := by
          intro k hk hkn
          exact hmono ((i + j) / 2) k hk hkn hf
        obtain ⟨h1, h2, h3, h4⟩ := ih i ((i + j) / 2) hh1 (by omega) (by omega) hlo hhi2
        exact ⟨h1, by omega, h3, h4⟩
    · have : i = j := by omega
      subst this
      simp only [lt_self_iff_false, if_false]
      exact ⟨le_refl _, le_refl _, hlo, hhi⟩

theorem Search_spec (f : Nat → Bool) (n : Nat)
    (hmono : ∀ a b, a ≤ b → b < n → f a = true → f b = true) :
    Search n f ≤ n ∧ (∀ k, k < Search n f → f k = false) ∧
    (∀ k, Search n f ≤ k → k < n → f k = true) := by
  obtain ⟨_, h2, h3, h4⟩ := searchLoop_spec f n hmono n 0 n (Nat.zero_le _) (le_refl _)
    (by omega) (fun k hk => absurd hk (Nat.not_lt_zero k)) (fun k hk hkn => by omega)
  exact ⟨h2, h3, h4⟩

theorem sorted_getD_le (xs : List Int) (hs : xs.Sorted (fun a b => a ≤ b)) (a b : Nat)
    (hab : a ≤ b) (hb : b < xs.length) : xs.getD a 0 ≤ xs.getD b 0 := by
  have ha : a < xs.length := lt_of_le_of_lt hab hb
  rw [List.getD_eq_getElem xs 0 ha, List.getD_eq_getElem xs 0 hb]
  rcases Nat.eq_or_lt_of_le hab with h | h
  · subst h
    exact le_refl _
  · exact (List.pairwise_iff_getElem.mp hs) a b ha hb h

/-- On a sorted ring the code's lookup and the reference lookup agree. -/
theorem Get_eq_specGet_of_sorted (m : Map) (key : String)
    (hs : m.keys.Sorted (fun a b => a ≤ b)) : m.Get key = m.specGet key := by
  unfold Map.Get Map.specGet
  by_cases hnil : m.keys = []
  · simp [hnil]
  have hlen : m.keys.length ≠ 0 := by
    intro h
    exact hnil (List.length_eq_zero.mp h)
  have hpos : 0 < m.keys.length := Nat.pos_of_ne_zero hlen
  simp only [hlen, hnil, if_false]
  set hk : Int := ((m.hash key : Nat) : Int) with hkdef
  set f : Nat → Bool := fun i => decide (m.keys.getD i 0 ≥ hk) with hfdef
  have hmono : ∀ a b, a ≤ b → b < m.keys.length → f a = true → f b = true := by
    intro a b hab hb hfa
    have hle := sorted_getD_le m.keys hs a b hab hb
    simp only [hfdef, ge_iff_le, decide_eq_true_eq] at hfa ⊢
    exact le_trans hfa hle
  obtain ⟨hle, hlo, hhi⟩ := Search_spec f m.keys.length hmono
  rcases Nat.eq_or_lt_of_le hle with heq | hlt
  · -- no virtual node at or above the key: wrap around to index 0
    have hfilter : m.keys.filter (fun h => decide (hk ≤ h)) = [] := by
      rw [List.filter_eq_nil_iff]
      intro h hmem
      obtain ⟨k, hkl, hget⟩ := List.getElem_of_mem hmem
      have := hlo k (by rw [heq]; exact hkl)
      simp only [hfdef, ge_iff_le, decide_eq_false_iff_not,
        List.getD_eq_getElem m.keys 0 hkl, hget] at this
      simpa using this
    have hmin : m.keys.min? = some (m.keys.getD 0 0) := by
      rw [int_min?_eq_some_iff]
      constructor
      · rw [List.getD_eq_getElem m.keys 0 hpos]
        exact List.getElem_mem hpos
      · intro b hb
        obtain ⟨k, hkl, hget⟩ := List.getElem_of_mem hb
        have := sorted_getD_le m.keys hs 0 k (Nat.zero_le _) hkl
        rw [List.getD_eq_getElem m.keys 0 hkl, hget] at this
        exact this
    rw [hfilter, heq, Nat.mod_self]
    simp [hmin]
  · -- the virtual node at the index found is the smallest one at or above the key
    have hmin : (m.keys.filter (fun h => decide (hk ≤ h))).min?
        = some (m.keys.getD (Search m.keys.length f) 0) := by
      rw [int_min?_eq_some_iff]
      constructor
      · rw [List.mem_filter]
        constructor
        · rw [List.getD_eq_getElem m.keys 0 hlt]
          exact List.getElem_mem hlt
        · have := hhi (Search m.keys.length f) (le_refl _) hlt
          simpa [hfdef] using this
      · intro b hb
        rw [List.mem_filter] at hb
        obtain ⟨k, hkl, hget⟩ := List.getElem_of_mem hb.1
        have hfk : f k = true := by
          simp only [hfdef, ge_iff_le, decide_eq_true_eq, List.getD_eq_getElem m.keys 0 hkl,
            hget]
          simpa using hb.2
        have hidx : Search m.keys.length f ≤ k := by
          by_contra hcon
          have := hlo k (by omega)
          rw [hfk] at this
          exact absurd this (by simp)
        have := sorted_getD_le m.keys hs _ k hidx hkl
        rw [List.getD_eq_getElem m.keys 0 hkl, hget] at this
        exact this
    rw [hmin, Nat.mod_eq_of_lt hlt]

set_option maxRecDepth 100000 in
/-- The standard check value of CRC-32 (IEEE): the checksum of "123456789". -/
theorem ChecksumIEEE_check : ChecksumIEEE "123456789" = 0xCBF43926 := by
  decide

theorem sorted_sortInts (xs : List Int) : (sortInts xs).Sorted (fun a b => a ≤ b) :=
  List.sorted_insertionSort _ xs

theorem sorted_ring_keys (replicas : Int) (fn : Option Hash) (calls : List (List String)) :
    (ring replicas fn calls).keys.Sorted (fun a b => a ≤ b) := by
  induction calls using List.reverseRecOn with
  | nil => simp [ring, New]
  | append_singleton calls call _ =>
    simp only [ring, List.foldl_append, List.foldl_cons, List.foldl_nil, Map.Add]
    exact sorted_sortInts _

/-- C4 (ring lookup equals its reference definition): on every ring built by `New`
followed by any sequence of `Add` calls, and for every key, `Map.Get` returns "" when
the ring has no virtual nodes, and otherwise the node mapped to the smallest
virtual-node hash that is at least the key's hash, or, when there is none, the node
mapped to the smallest virtual-node hash of the ring. -/
theorem C4_Get_eq_specGet (replicas : Int) (fn : Option Hash) (calls : List (List String))
    (key : String) :
    (ring replicas fn calls).Get key = (ring replicas fn calls).specGet key :=
  Get_eq_specGet_of_sorted _ key (sorted_ring_keys replicas fn calls)

end consistenthash

/-! ## Hash ring: what `Add` does to the ring -/

namespace consistenthash

theorem foldl_addReplica (key : String) (is : List Nat) (m : Map) :
    (is.foldl (addReplica key) m).hash = m.hash ∧
    (is.foldl (addReplica key) m).replicas = m.replicas ∧
    (is.foldl (addReplica key) m).keys
      = m.keys ++ is.map (fun i => ((m.hash (toString i ++ key) : Nat) : Int)) ∧
    ∀ x, (is.foldl (addReplica key) m).hashMap x
      = if x ∈ is.map (fun i => ((m.hash (toString i ++ key) : Nat) : Int)) then some key
        else m.hashMap x := by
  induction is generalizing m with
  | nil => simp
  | cons i is ih =>
    obtain ⟨h1, h2, h3, h4⟩ := ih (addReplica key m i)
    simp only [List.foldl_cons]
    refine ⟨by rw [h1]; rfl, by rw [h2]; rfl, ?_, ?_⟩
    · rw [h3]
      simp [addReplica]
    · intro x
      rw [h4]
      simp only [addReplica, store, List.map_cons, List.mem_cons]
      by_cases hx : x ∈ is.map (fun i => ((m.hash (toString i ++ key) : Nat) : Int))
      · simp [hx]
      · by_cases hx2 : x = ((m.hash (toString i ++ key) : Nat) : Int)
        · simp [hx2]
        · simp [hx, hx2]

theorem addNode_hash (m : Map) (key : String) : (addNode m key).hash = m.hash :=
  (foldl_addReplica key _ m).1

theorem addNode_replicas (m : Map) (key : String) : (addNode m key).replicas = m.replicas :=
  (foldl_addReplica key _ m).2.1

theorem addNode_keys (m : Map) (key : String) :
    (addNode m key).keys = m.keys ++ vnodes m.hash m.replicas key :=
  (foldl_addReplica key _ m).2.2.1

theorem addNode_hashMap (m : Map) (key : String) (x : Int) :
    (addNode m key).hashMap x
      = if x ∈ vnodes m.hash m.replicas key then some key else m.hashMap x :=
  (foldl_addReplica key _ m).2.2.2 x

theorem mem_sortInts (xs : List Int) (x : Int) : x ∈ sortInts xs ↔ x ∈ xs :=
  (List.perm_insertionSort _ xs).mem_iff

theorem filter_min?_eq_some_iff (xs : List Int) (hk a : Int) :
    (xs.filter (fun h => decide (hk ≤ h))).min? = some a
      ↔ a ∈ xs ∧ hk ≤ a ∧ ∀ b, b ∈ xs → hk ≤ b → a ≤ b := by
  rw [int_min?_eq_some_iff]
  simp only [List.mem_filter, decide_eq_true_eq]
  constructor
  · rintro ⟨⟨h1, h2⟩, h3⟩
    exact ⟨h1, h2, fun b hb hkb => h3 b ⟨hb, hkb⟩⟩
  · rintro ⟨h1, h2, h3⟩
    exact ⟨⟨h1, h2⟩, fun b hb => h3 b hb.1 hb.2⟩

theorem filter_min?_eq_none_iff (xs : List Int) (hk : Int) :
    (xs.filter (fun h => decide (hk ≤ h))).min? = none ↔ ∀ b, b ∈ xs → ¬ hk ≤ b := by
  rw [List.min?_eq_none_iff, List.filter_eq_nil_iff]
  simp

/-- Locality of the reference lookup: after adding the virtual nodes `hs`, all mapped
to `n`, the lookup yields the former answer or `n`. -/
theorem specGet_grow (m m1 : Map) (n key : String) (hs : List Int)
    (hhash : m1.hash = m.hash)
    (hkeys : ∀ x, x ∈ m1.keys ↔ x ∈ m.keys ∨ x ∈ hs)
    (hmap : ∀ x, m1.hashMap x = if x ∈ hs then some n else m.hashMap x) :
    m1.specGet key = m.specGet key ∨ m1.specGet key = n := by
  unfold Map.specGet
  rw [hhash]
  by_cases hnil1 : m1.keys = []
  · have hnil : m.keys = [] := by
      apply List.eq_nil_iff_forall_not_mem.mpr
      intro x hx
      have : x ∈ m1.keys := (hkeys x).mpr (Or.inl hx)
      rw [hnil1] at this
      exact absurd this (List.not_mem_nil x)
    left
    simp [hnil1, hnil]
  simp only [hnil1, if_false]
  cases hsel : (m1.keys.filter (fun h => decide (((m.hash key : Nat) : Int) ≤ h))).min? with
  | some a =>
    simp only []
    obtain ⟨ha, hka, hamin⟩ := (filter_min?_eq_some_iff _ _ _).mp hsel
    by_cases hahs : a ∈ hs
    · right
      simp [load, hmap a, hahs]
    · left
      have ham : a ∈ m.keys := ((hkeys a).mp ha).resolve_right hahs
      have hne : m.keys ≠ [] := List.ne_nil_of_mem ham
      have hold : (m.keys.filter (fun h => decide (((m.hash key : Nat) : Int) ≤ h))).min?
          = some a :=
        (filter_min?_eq_some_iff _ _ _).mpr
          ⟨ham, hka, fun b hb hkb => hamin b ((hkeys b).mpr (Or.inl hb)) hkb⟩
      simp [hne, hold, load, hmap a, hahs]
  | none =>
    simp only []
    have hnone := (filter_min?_eq_none_iff _ _).mp hsel
    obtain ⟨a, hmin⟩ : ∃ a, m1.keys.min? = some a := by
      cases h : m1.keys.min? with
      | none => exact absurd (List.min?_eq_none_iff.mp h) hnil1
      | some a => exact ⟨a, rfl⟩
    obtain ⟨ha, hamin⟩ := (int_min?_eq_some_iff _ _).mp hmin
    rw [hmin]
    by_cases hahs : a ∈ hs
    · right
      simp [load, hmap a, hahs]
    · left
      have ham : a ∈ m.keys := ((hkeys a).mp ha).resolve_right hahs
      have hne : m.keys ≠ [] := List.ne_nil_of_mem ham
      have hold : (m.keys.filter (fun h => decide (((m.hash key : Nat) : Int) ≤ h))).min?
          = none :=
        (filter_min?_eq_none_iff _ _).mpr
          (fun b hb => hnone b ((hkeys b).mpr (Or.inl hb)))
      have holdmin : m.keys.min? = some a :=
        (int_min?_eq_some_iff _ _).mpr
          ⟨ham, fun b hb => hamin b ((hkeys b).mpr (Or.inl hb))⟩
      simp [hne, hold, holdmin, load, hmap a, hahs]

theorem ring_snoc (replicas : Int) (fn : Option Hash) (calls : List (List String))
    (call : List String) :
    ring replicas fn (calls ++ [call]) = (ring replicas fn calls).Add call := by
  simp [ring, List.foldl_append]

/-- C5 (ring locality under growth): for every hash function, replica count, ring
built by `Add` calls, node `n` and key `k`, the owner `Get(k)` after a further
`Add(n)` is the owner `Get(k)` returned before that `Add`, or `n` itself. -/
theorem C5_ring_locality (replicas : Int) (fn : Option Hash) (calls : List (List String))
    (n k : String) :
    ((ring replicas fn calls).Add [n]).Get k = (ring replicas fn calls).Get k ∨
    ((ring replicas fn calls).Add [n]).Get k = n := by
  have hs0 := sorted_ring_keys replicas fn calls
  have hs1 := sorted_ring_keys replicas fn (calls ++ [[n]])
  rw [ring_snoc] at hs1
  rw [Get_eq_specGet_of_sorted _ k hs0, Get_eq_specGet_of_sorted _ k hs1]
  apply specGet_grow (ring replicas fn calls) _ n k
    (vnodes (ring replicas fn calls).hash (ring replicas fn calls).replicas n)
  · simp [Map.Add, addNode_hash]
  · intro x
    simp [Map.Add, mem_sortInts, addNode_keys]
  · intro x
    simp [Map.Add, addNode_hashMap]

end consistenthash

/-! ## Hash ring: dependence on the order of the nodes -/

namespace consistenthash

theorem foldl_addNode (xs : List String) (m : Map) :
    (xs.foldl addNode m).hash = m.hash ∧
    (xs.foldl addNode m).replicas = m.replicas ∧
    (xs.foldl addNode m).keys = m.keys ++ xs.flatMap (vnodes m.hash m.replicas) ∧
    ∀ x, ((∃ n, n ∈ xs ∧ x ∈ vnodes m.hash m.replicas n ∧
            (xs.foldl addNode m).hashMap x = some n) ∨
          ((∀ n, n ∈ xs → x ∉ vnodes m.hash m.replicas n) ∧
            (xs.foldl addNode m).hashMap x = m.hashMap x)) := by
  induction xs generalizing m with
  | nil => simp
  | cons a xs ih =>
    obtain ⟨h1, h2, h3, h4⟩ := ih (addNode m a)
    rw [addNode_hash, addNode_replicas] at h4 h3
    simp only [List.foldl_cons]
    refine ⟨by rw [h1, addNode_hash], by rw [h2, addNode_replicas], ?_, ?_⟩
    · rw [h3, addNode_keys]
      simp [List.flatMap_cons]
    · intro x
      rcases h4 x with ⟨n, hn, hx, hval⟩ | ⟨hnot, hval⟩
      · left
        exact ⟨n, List.mem_cons_of_mem a hn, hx, hval⟩
      · rw [addNode_hashMap] at hval
        by_cases hxa : x ∈ vnodes m.hash m.replicas a
        · left
          refine ⟨a, List.mem_cons_self a xs, hxa, ?_⟩
          rw [hval]
          simp [hxa]
        · right
          constructor
          · intro n hn
            rcases List.mem_cons.mp hn with rfl | hn
            · exact hxa
            · exact hnot n hn
          · rw [hval]
            simp [hxa]

theorem sortInts_perm (xs ys : List Int) (h : xs.Perm ys) : sortInts xs = sortInts ys := by
  apply List.eq_of_perm_of_sorted (r := fun a b : Int => a ≤ b)
  · exact ((List.perm_insertionSort _ xs).trans h).trans (List.perm_insertionSort _ ys).symm
  · exact sorted_sortInts xs
  · exact sorted_sortInts ys

theorem ring_single (replicas : Int) (fn : Option Hash) (xs : List String) :
    ring replicas fn [xs] = (New replicas fn).Add xs := by
  simp [ring]

/-- C6 on the code, where it fails: with a hash under which the virtual nodes of "a"
and "b" collide (here the length of the label), the rings built from ["a", "b"] and
from ["b", "a"] hold the same virtual-node sequence but map the shared virtual-node
hash to different nodes, and `Get` answers differently. -/
theorem C6_order_matters_on_collision :
    List.Perm ["a", "b"] ["b", "a"] ∧ ["a", "b"].Nodup ∧ ["b", "a"].Nodup ∧
    (ring 1 (some (fun s => s.length)) [["a", "b"]]).keys = [2, 2] ∧
    (ring 1 (some (fun s => s.length)) [["b", "a"]]).keys = [2, 2] ∧
    (ring 1 (some (fun s => s.length)) [["a", "b"]]).hashMap 2 = some "b" ∧
    (ring 1 (some (fun s => s.length)) [["b", "a"]]).hashMap 2 = some "a" ∧
    (ring 1 (some (fun s => s.length)) [["a", "b"]]).Get "k" = "b" ∧
    (ring 1 (some (fun s => s.length)) [["b", "a"]]).Get "k" = "a" ∧
    (ring 1 (some (fun s => s.length)) [["a", "b"]]).Get "k"
      ≠ (ring 1 (some (fun s => s.length)) [["b", "a"]]).Get "k" := by
  refine ⟨List.Perm.swap _ _ _, by decide, by decide, by decide, by decide, by decide,
    by decide, by decide, by decide, by decide⟩

/-- C6 as amended (ring determinism over node sets): for every hash function, every
replica count and every two lists of node identifiers that are reorderings of each
other, if no two different nodes of the list share a virtual-node hash, then the two
rings built from a fresh `New` by `Add` of each list have the same virtual-node
sequence and the same virtual-node-to-node mapping, and `Get` returns the same node
on both for every key. -/
theorem C6_ring_determinism (replicas : Int) (fn : Option Hash) (xs ys : List String)
    (hperm : xs.Perm ys)
    (hfree : ∀ a ∈ xs, ∀ b ∈ xs, ∀ h ∈ vnodes (New replicas fn).hash replicas a,
      h ∈ vnodes (New replicas fn).hash replicas b → a = b) :
    (ring replicas fn [xs]).keys = (ring replicas fn [ys]).keys ∧
    (∀ h, (ring replicas fn [xs]).hashMap h = (ring replicas fn [ys]).hashMap h) ∧
    ∀ key, (ring replicas fn [xs]).Get key = (ring replicas fn [ys]).Get key := by
  obtain ⟨hx1, hx2, hx3, hx4⟩ := foldl_addNode xs (New replicas fn)
  obtain ⟨hy1, hy2, hy3, hy4⟩ := foldl_addNode ys (New replicas fn)
  have hrep : (New replicas fn).replicas = replicas := rfl
  rw [hrep] at hx3 hx4 hy3 hy4
  have hkeys : (ring replicas fn [xs]).keys = (ring replicas fn [ys]).keys := by
    rw [ring_single, ring_single]
    simp only [Map.Add]
    rw [hx3, hy3]
    apply sortInts_perm
    exact List.Perm.append_left _ (List.Perm.flatMap_right _ hperm)
  have hmap : ∀ h, (ring replicas fn [xs]).hashMap h = (ring replicas fn [ys]).hashMap h := by
    intro h
    rw [ring_single, ring_single]
    simp only [Map.Add]
    rcases hx4 h with ⟨n, hn, hh, hval⟩ | ⟨hnot, hval⟩
    · rcases hy4 h with ⟨n2, hn2, hh2, hval2⟩ | ⟨hnot2, _⟩
      · have : n = n2 := hfree n hn n2 (hperm.mem_iff.mpr hn2) h hh hh2
        rw [hval, hval2, this]
      · exact absurd hh (hnot2 n (hperm.mem_iff.mp hn))
    · rcases hy4 h with ⟨n2, hn2, hh2, _⟩ | ⟨_, hval2⟩
      · exact absurd hh2 (hnot n2 (hperm.mem_iff.mpr hn2))
      · rw [hval, hval2]
  refine ⟨hkeys, hmap, ?_⟩
  intro key
  have hhash : (ring replicas fn [xs]).hash = (ring replicas fn [ys]).hash := by
    rw [ring_single, ring_single]
    simp only [Map.Add]
    rw [hx1, hy1]
  have hfun : (ring replicas fn [xs]).hashMap = (ring replicas fn [ys]).hashMap := funext hmap
  unfold Map.Get
  rw [hkeys, hhash, hfun]

set_option maxRecDepth 100000 in
/-- C6 as amended, at a concrete input: the default hash, two virtual nodes per node,
nodes "a" and "b" in both orders. -/
theorem C6_ring_determinism_witness :
    (ring 2 none [["a", "b"]]).keys = (ring 2 none [["b", "a"]]).keys ∧
    (∀ h, (ring 2 none [["a", "b"]]).hashMap h = (ring 2 none [["b", "a"]]).hashMap h) ∧
    ∀ key, (ring 2 none [["a", "b"]]).Get key = (ring 2 none [["b", "a"]]).Get key :=
  C6_ring_determinism 2 none ["a", "b"] ["b", "a"] (List.Perm.swap _ _ _) (by decide)

end consistenthash

/-! ## Eviction cache: an entry that fits survives its own `Add` -/

namespace lru

variable {V : Type}

theorem sizeSum_nonneg [Value V] (ll : List (entry V)) (hnn : NonNegLen ll) :
    0 ≤ sizeSum ll := by
  induction ll with
  | nil => simp [sizeSum]
  | cons x xs ih =>
    rw [sizeSum_cons]
    have hx : 0 ≤ Value.Len x.value := hnn x (List.mem_cons_self x xs)
    have hxs := ih (fun e he => hnn e (List.mem_cons_of_mem x he))
    have : 0 ≤ x.size := by
      unfold entry.size
      omega
    omega

theorem nonNegLen_of_sublist [Value V] (l1 l2 : List (entry V)) (hsub : l1.Sublist l2)
    (hnn : NonNegLen l2) : NonNegLen l1 :=
  fun e he => hnn e (hsub.subset he)

theorem RemoveOldest_cons [Value V] (c : Cache V) (e : entry V) (rest : List (entry V))
    (hll : c.ll = e :: rest) (hne : rest ≠ []) :
    c.RemoveOldest.ll = e :: rest.dropLast := by
  obtain ⟨x, xs, rfl⟩ := List.exists_cons_of_ne_nil hne
  simp [Cache.RemoveOldest, hll, List.getLast?_cons_cons, List.getLast?_eq_getLast]

/-- The eviction loop never removes the front entry when that entry alone fits. -/
theorem evictLoop_keeps_head [Value V] (fuel : Nat) (c c1 : Cache V) (e : entry V)
    (rest : List (entry V)) (hll : c.ll = e :: rest) (hacc : Accounted c)
    (hfit : c.maxBytes = 0 ∨ e.size ≤ c.maxBytes)
    (hrun : evictLoop fuel c = some c1) : ∃ rest1, c1.ll = e :: rest1 := by
  induction fuel generalizing c rest with
  | zero => simp [evictLoop] at hrun
  | succ n ih =>
    unfold evictLoop at hrun
    split at hrun
    · rename_i hcond
      have hne : rest ≠ [] := by
        intro hnil
        have hnb : c.nbytes = e.size := by
          rw [hacc, hll, hnil, sizeSum_cons, sizeSum_nil]
          ring
        omega
      apply ih c.RemoveOldest rest.dropLast (RemoveOldest_cons c e rest hll hne)
        (accounted_RemoveOldest c hacc) _ hrun
      rw [maxBytes_RemoveOldest]
      exact hfit
    · cases hrun
      exact ⟨rest, hll⟩

theorem lookup_cons_self (e : entry V) (rest : List (entry V)) :
    lookup (e :: rest) e.key = some e := by
  simp [lookup]

theorem insert_ll [Value V] (c : Cache V) (key : String) (value : V) :
    ∃ rest, (c.insert key value).ll = { key := key, value := value } :: rest := by
  unfold Cache.insert
  cases hl : lookup c.ll key with
  | none => exact ⟨c.ll, rfl⟩
  | some ele =>
    have hk := lookup_key c.ll key ele hl
    refine ⟨remove c.ll ele.key, ?_⟩
    simp [MoveToFront, hk]

theorem insert_OnEvicted [Value V] (c : Cache V) (key : String) (value : V) :
    (c.insert key value).OnEvicted = c.OnEvicted := by
  unfold Cache.insert
  cases lookup c.ll key <;> rfl

/-- An `Add` of an entry that fits (or into an unlimited cache) returns, and the entry
is then found under its key with the value added. -/
theorem Add_fits [Value V] (fuel : Nat) (c : Cache V) (key : String) (value : V)
    (hacc : Accounted c) (hmax : 0 ≤ c.maxBytes)
    (hfit : c.maxBytes = 0 ∨ (strLen key : Int) + (Value.Len value : Int) ≤ c.maxBytes)
    (hfuel : c.ll.length + 2 ≤ fuel) :
    ∃ c1, c.Add fuel key value = some c1 ∧
      lookup c1.ll key = some { key := key, value := value } ∧
      Accounted c1 ∧ c1.maxBytes = c.maxBytes := by
  have hmb := maxBytes_insert c key value
  have hlen := length_insert_le c key value
  have hacc0 := accounted_insert c key value hacc
  obtain ⟨c1, hc1⟩ := evictLoop_terminates fuel (c.insert key value) hacc0
    (by rw [hmb]; exact hmax) (by omega)
  obtain ⟨rest, hrest⟩ := insert_ll c key value
  obtain ⟨rest1, hrest1⟩ := evictLoop_keeps_head fuel (c.insert key value) c1
    { key := key, value := value } rest hrest hacc0 (by rw [hmb]; exact hfit) hc1
  refine ⟨c1, hc1, ?_, accounted_evictLoop fuel _ c1 hacc0 hc1, ?_⟩
  · rw [hrest1]
    exact lookup_cons_self { key := key, value := value } rest1
  · rw [evictLoop_maxBytes fuel _ c1 hc1, hmb]

end lru

/-! ## Group orchestrator -/

namespace geecache

open singleflight (Error)

theorem Get_fst_none_iff (l : lru.Cache ByteView) (key : String) :
    (l.Get key).1 = none ↔ lru.lookup l.ll key = none := by
  unfold lru.Cache.Get
  cases lru.lookup l.ll key <;> simp

/-- A miss leaves the local cache as it was. -/
theorem cache_get_miss (c : cache) (key : String) (h : (c.get key).1 = none) :
    (c.get key).2 = c := by
  unfold cache.get at h ⊢
  cases hl : c.lru with
  | none => rfl
  | some l =>
    simp only [hl] at h ⊢
    have hmiss := (Get_fst_none_iff l key).mp h
    rw [lru.Get_miss l key hmiss]
    cases c
    simp_all

theorem delete_store {α : Type} (m : List (String × singleflight.call α)) (key : String)
    (c : singleflight.call α) :
    singleflight.delete (singleflight.store m key c) key = singleflight.delete m key := by
  simp [singleflight.store, singleflight.delete, List.filter_filter]

theorem Do_idle {α σ : Type} (g : singleflight.Group α) (key : String)
    (fn : σ → Option ((α × Option Error) × σ)) (s : σ)
    (hidle : singleflight.find (g.m.getD []) key = none) :
    g.Do key fn s = (fn s).map
      (fun r => (r.1, r.2, { m := some (singleflight.delete (g.m.getD []) key) })) := by
  unfold singleflight.Group.Do singleflight.Group.enter
  simp only [hidle]
  cases fn s with
  | none => rfl
  | some out =>
    simp only [Option.map_some', singleflight.Group.leave, singleflight.complete,
      singleflight.register, delete_store, Option.getD_some]

/-- C8 (empty-key rejection): for every Group in every state, `Get("")` returns the
error "key is required" and leaves the whole Group as it was: the local cache is
neither read nor changed, and no call to the coalescer, to the peer picker or to the
local source is made (the trace of calls is unchanged). -/
theorem C8_empty_key_rejected (fuel : Nat) (g : Group) :
    g.Get fuel "" = some ((ByteView.mk [], some "key is required"), g) := by
  simp [Group.Get]

/-- The result and the final state of `Get` when a peer is picked and its fetch
succeeds. -/
theorem Get_remote_success (fuel : Nat) (g : Group) (pp : PeerPicker) (peer : PeerGetter)
    (k : String) (v : List UInt8)
    (hpeers : g.peers = some pp) (hk : k ≠ "")
    (hmiss : (g.mainCache.get k).1 = none) (hidle : g.Idle k)
    (hpick : pp.PickPeer k = some peer)
    (hfetch : peer.Get { Group := g.name, Key := k } = .ok { Value := v }) :
    g.Get fuel k = some ((ByteView.mk v, none),
      { g with
        loader := { m := some (singleflight.delete (g.loader.m.getD []) k) }
        trace := g.trace ++ [Event.cacheGet k] ++ [Event.loaderDo k] ++ [Event.pickPeer k]
          ++ [Event.peerGet { Group := g.name, Key := k }] }) := by
  unfold Group.Idle at hidle
  simp only [Group.Get, hk, if_false, hmiss, cache_get_miss g.mainCache k hmiss, Group.load]
  rw [Do_idle _ _ _ _ hidle]
  simp [Group.loadFn, hpeers, hpick, Group.getFromPeer, hfetch]

/-- C9 (remote success does not populate the local cache): for every Group with a
registered peer picker and every non-empty key `k` absent from the local cache (no
call for `k` being in flight) such that `PickPeer(k)` returns a peer whose fetch
succeeds with bytes `v`, `Get(k)` returns `v` with no error, does not invoke the local
source, and leaves the local cache unchanged, so `k` is still absent afterwards. -/
theorem C9_remote_success_no_populate (fuel : Nat) (g : Group) (pp : PeerPicker)
    (peer : PeerGetter) (k : String) (v : List UInt8)
    (hpeers : g.peers = some pp) (hk : k ≠ "")
    (hmiss : (g.mainCache.get k).1 = none) (hidle : g.Idle k)
    (hpick : pp.PickPeer k = some peer)
    (hfetch : peer.Get { Group := g.name, Key := k } = .ok { Value := v }) :
    ∃ g1, g.Get fuel k = some ((ByteView.mk v, none), g1) ∧
      g1.mainCache = g.mainCache ∧
      (g1.mainCache.get k).1 = none ∧
      sourceCalls g1.trace = sourceCalls g.trace ∧
      g1.trace = g.trace ++ [Event.cacheGet k, Event.loaderDo k, Event.pickPeer k,
        Event.peerGet { Group := g.name, Key := k }] := by
  refine ⟨_, Get_remote_success fuel g pp peer k v hpeers hk hmiss hidle hpick hfetch,
    rfl, hmiss, ?_, ?_⟩
  · simp [sourceCalls, List.countP_append]
  · simp

end geecache

namespace geecache

open singleflight (Error)

/-- C9 at a concrete input: the example Group with a peer that answers "v2". -/
theorem C9_remote_success_no_populate_witness :
    ∃ g1, (exampleGroup 1024 (some peerOK)).Get 1 "k2"
        = some ((ByteView.mk [118, 50], none), g1) ∧
      g1.mainCache = (exampleGroup 1024 (some peerOK)).mainCache ∧
      (g1.mainCache.get "k2").1 = none ∧
      sourceCalls g1.trace = sourceCalls (exampleGroup 1024 (some peerOK)).trace ∧
      g1.trace = (exampleGroup 1024 (some peerOK)).trace ++
        [Event.cacheGet "k2", Event.loaderDo "k2", Event.pickPeer "k2",
          Event.peerGet { Group := (exampleGroup 1024 (some peerOK)).name, Key := "k2" }] :=
  C9_remote_success_no_populate 1 (exampleGroup 1024 (some peerOK))
    { PickPeer := fun _ => some peerOK } peerOK "k2" [118, 50] rfl (by decide) rfl rfl rfl rfl

theorem NewGroup_example (cacheBytes : Int) :
    NewGroup "scores" cacheBytes (some exampleSource) = some (exampleGroup cacheBytes none) :=
  rfl

theorem sourceCalls_append (xs ys : List Event) :
    sourceCalls (xs ++ ys) = sourceCalls xs + sourceCalls ys := by
  simp [sourceCalls, List.countP_append]

/-- The local path on a miss: the source is asked once and its value is added to the
local cache. -/
theorem Get_local_success (fuel : Nat) (g : Group) (k : String) (v : List UInt8)
    (c1 : cache)
    (hpeers : g.peers = none) (hk : k ≠ "")
    (hmiss : (g.mainCache.get k).1 = none) (hidle : g.Idle k)
    (hsrc : g.getter k = .ok v)
    (hadd : g.mainCache.add fuel k (ByteView.mk v) = some c1) :
    g.Get fuel k = some ((ByteView.mk v, none),
      { g with
        mainCache := c1
        loader := { m := some (singleflight.delete (g.loader.m.getD []) k) }
        trace := g.trace ++ [Event.cacheGet k] ++ [Event.loaderDo k] ++ [Event.getterGet k]
          ++ [Event.cacheAdd k] }) := by
  unfold Group.Idle at hidle
  simp only [Group.Get, hk, if_false, hmiss, cache_get_miss g.mainCache k hmiss, Group.load]
  rw [Do_idle _ _ _ _ hidle]
  simp [Group.loadFn, hpeers, Group.getLocally, hsrc, Group.populateCache, hadd, cloneBytes]

/-- A hit: the value is returned straight from the local cache. -/
theorem Get_cache_hit (fuel : Nat) (g : Group) (k : String) (v : ByteView)
    (hk : k ≠ "") (hhit : (g.mainCache.get k).1 = some v) :
    g.Get fuel k = some ((v, none),
      { g with mainCache := (g.mainCache.get k).2, trace := g.trace ++ [Event.cacheGet k] }) := by
  simp [Group.Get, hk, hhit]

/-- An `add` of an entry that fits makes the entry available to `get`. -/
theorem cache_add_fits (fuel : Nat) (c : cache) (k : String) (v : ByteView)
    (hwf : ∀ l, c.lru = some l → l.maxBytes = c.cacheBytes ∧ lru.Accounted l)
    (hfit : c.cacheBytes = 0 ∨ (strLen k : Int) + (v.b.length : Int) ≤ c.cacheBytes)
    (hfuel : (match c.lru with
      | none => 0
      | some l => l.Len) + 2 ≤ fuel) :
    ∃ c1, c.add fuel k v = some c1 ∧ (c1.get k).1 = some v ∧
      c1.cacheBytes = c.cacheBytes ∧
      ∀ l, c1.lru = some l → l.maxBytes = c1.cacheBytes ∧ lru.Accounted l := by
  have hcb : 0 ≤ c.cacheBytes := by
    rcases hfit with h | h
    · omega
    · omega
  unfold cache.add
  cases hl : c.lru with
  | none =>
    simp only [hl] at hfuel
    obtain ⟨l1, h1, h2, h3, h4⟩ := lru.Add_fits fuel (lru.New c.cacheBytes false) k v
      (lru.accounted_New _ _) hcb hfit (by simp only [lru.New, List.length_nil]; omega)
    refine ⟨{ c with lru := some l1 }, by simp [h1], ?_, rfl, ?_⟩
    · simp [cache.get, lru.Cache.Get, h2]
    · intro l hl1
      simp only [Option.some.injEq] at hl1
      subst hl1
      exact ⟨h4, h3⟩
  | some l =>
    simp only [hl] at hfuel
    obtain ⟨hmb, hacc⟩ := hwf l hl
    obtain ⟨l1, h1, h2, h3, h4⟩ := lru.Add_fits fuel l k v hacc (by rw [hmb]; exact hcb)
      (by rw [hmb]; exact hfit) (by simpa [lru.Cache.Len] using hfuel)
    refine ⟨{ c with lru := some l1 }, by simp [h1], ?_, rfl, ?_⟩
    · simp [cache.get, lru.Cache.Get, h2]
    · intro l2 hl2
      simp only [Option.some.injEq] at hl2
      subst hl2
      exact ⟨by rw [h4, hmb], h3⟩

/-- The first `Get(k)` fetches from the source and the second is served from the local
cache, in every well-formed Group state in which `k` is absent from the cache. -/
theorem Get_twice_local (fuel : Nat) (g : Group) (k : String) (v : List UInt8)
    (hwf : g.WF) (hpeers : g.peers = none) (hk : k ≠ "")
    (hmiss : (g.mainCache.get k).1 = none) (hidle : g.Idle k)
    (hsrc : g.getter k = .ok v)
    (hfit : g.mainCache.cacheBytes = 0 ∨
      (strLen k : Int) + (v.length : Int) ≤ g.mainCache.cacheBytes)
    (hfuel : g.held + 2 ≤ fuel) :
    ∃ g1 g2, g.Get fuel k = some ((ByteView.mk v, none), g1) ∧
      g1.Get fuel k = some ((ByteView.mk v, none), g2) ∧
      g2.trace = g.trace ++ [Event.cacheGet k, Event.loaderDo k, Event.getterGet k,
        Event.cacheAdd k, Event.cacheGet k] := by
  obtain ⟨c1, hadd, hget, _, _⟩ := cache_add_fits fuel g.mainCache k (ByteView.mk v) hwf hfit
    hfuel
  have h1 := Get_local_success fuel g k v c1 hpeers hk hmiss hidle hsrc hadd
  refine ⟨_, _, h1, Get_cache_hit fuel _ k (ByteView.mk v) hk hget, ?_⟩
  simp

end geecache

/-! ## Keys that stay absent -/

namespace lru

variable {V : Type}

theorem lookup_none_of_sublist (l1 l2 : List (entry V)) (key : String)
    (hsub : l1.Sublist l2) (h : lookup l2 key = none) : lookup l1 key = none := by
  rw [lookup_eq_none_iff] at h ⊢
  intro hmem
  exact h ((hsub.map entry.key).subset hmem)

theorem remove_sublist (ll : List (entry V)) (key : String) : (remove ll key).Sublist ll :=
  List.eraseP_sublist ll

theorem lookup_RemoveOldest_none [Value V] (c : Cache V) (key : String)
    (h : lookup c.ll key = none) : lookup c.RemoveOldest.ll key = none := by
  unfold Cache.RemoveOldest
  cases hl : c.ll.getLast? with
  | none => simpa using h
  | some kv => exact lookup_none_of_sublist _ _ key (List.dropLast_sublist c.ll) h

theorem lookup_evictLoop_none [Value V] (fuel : Nat) (c c1 : Cache V) (key : String)
    (h : lookup c.ll key = none) (hrun : evictLoop fuel c = some c1) :
    lookup c1.ll key = none := by
  induction fuel generalizing c with
  | zero => simp [evictLoop] at hrun
  | succ n ih =>
    unfold evictLoop at hrun
    split at hrun
    · exact ih c.RemoveOldest (lookup_RemoveOldest_none c key h) hrun
    · cases hrun
      exact h

theorem lookup_cons_ne (e : entry V) (rest : List (entry V)) (key : String)
    (hne : e.key ≠ key) : lookup (e :: rest) key = lookup rest key := by
  simp [lookup, List.find?_cons, hne]

theorem lookup_insert_none [Value V] (c : Cache V) (key k : String) (value : V)
    (hne : k ≠ key) (h : lookup c.ll k = none) : lookup (c.insert key value).ll k = none := by
  unfold Cache.insert
  cases hl : lookup c.ll key with
  | none =>
    simp only []
    rw [lookup_cons_ne _ _ k (fun hk => hne hk.symm)]
    exact h
  | some ele =>
    have hk := lookup_key c.ll key ele hl
    simp only [MoveToFront]
    rw [lookup_cons_ne _ _ k (by simp only [hk]; exact fun hk => hne hk.symm)]
    exact lookup_none_of_sublist _ _ k (remove_sublist c.ll _) h

theorem lookup_Get_none (c : Cache V) (key k : String)
    (h : lookup c.ll k = none) : lookup (c.Get key).2.ll k = none := by
  unfold Cache.Get
  cases hl : lookup c.ll key with
  | none => exact h
  | some ele =>
    have hmem : ele ∈ c.ll := List.mem_of_find?_eq_some hl
    rw [lookup_eq_none_iff] at h ⊢
    simp only [MoveToBack, keys, List.map_append, List.mem_append, List.map_cons, List.map_nil,
      List.mem_singleton, not_or]
    constructor
    · intro hmem2
      exact h (((remove_sublist c.ll ele.key).map entry.key).subset hmem2)
    · intro hk
      apply h
      rw [hk]
      exact List.mem_map_of_mem entry.key hmem

end lru

namespace geecache

open singleflight (Error)

theorem cache_get_fst_none_iff (c : cache) (k : String) :
    (c.get k).1 = none ↔ ∀ l, c.lru = some l → lru.lookup l.ll k = none := by
  unfold cache.get
  cases hl : c.lru with
  | none => simp
  | some l => simp [Get_fst_none_iff]

theorem Get_empty (fuel : Nat) (g : Group) :
    g.Get fuel "" = some ((ByteView.mk [], some "key is required"), g) := by
  simp [Group.Get]

/-- The local path on a miss when the source fails: the error is returned and the
local cache is not touched. -/
theorem Get_local_failure (fuel : Nat) (g : Group) (k : String) (err : Error)
    (hpeers : g.peers = none) (hk : k ≠ "")
    (hmiss : (g.mainCache.get k).1 = none) (hidle : g.Idle k)
    (hsrc : g.getter k = .error err) :
    g.Get fuel k = some ((ByteView.mk [], some err),
      { g with
        loader := { m := some (singleflight.delete (g.loader.m.getD []) k) }
        trace := g.trace ++ [Event.cacheGet k] ++ [Event.loaderDo k]
          ++ [Event.getterGet k] }) := by
  unfold Group.Idle at hidle
  simp only [Group.Get, hk, if_false, hmiss, cache_get_miss g.mainCache k hmiss, Group.load]
  rw [Do_idle _ _ _ _ hidle]
  simp [Group.loadFn, hpeers, Group.getLocally, hsrc]

/-- A `get` on the local cache keeps it well formed and of the same size, and keeps
absent keys absent. -/
theorem cache_get_step (c : cache) (key : String)
    (hwf : ∀ l, c.lru = some l → l.maxBytes = c.cacheBytes ∧ lru.Accounted l) :
    (∀ l, (c.get key).2.lru = some l → l.maxBytes = (c.get key).2.cacheBytes ∧ lru.Accounted l) ∧
    (c.get key).2.cacheBytes = c.cacheBytes ∧
    (match (c.get key).2.lru with
      | none => 0
      | some l => l.Len) = (match c.lru with
      | none => 0
      | some l => l.Len) ∧
    ∀ k, (c.get k).1 = none → ((c.get key).2.get k).1 = none := by
  cases hl : c.lru with
  | none =>
    have hget : (c.get key).2 = c := by simp [cache.get, hl]
    rw [hget]
    refine ⟨hwf, rfl, ?_, fun k h => h⟩
    simp [hl]
  | some l =>
    obtain ⟨hmb, hacc⟩ := hwf l hl
    have hget : (c.get key).2 = { c with lru := some (l.Get key).2 } := by
      simp [cache.get, hl]
    rw [hget]
    refine ⟨?_, rfl, ?_, ?_⟩
    · intro l1 hl1
      simp only [Option.some.injEq] at hl1
      subst hl1
      exact ⟨by rw [lru.maxBytes_Get_snd, hmb], lru.accounted_Get l key hacc⟩
    · simp [lru.Cache.Len, lru.length_Get_snd]
    · intro k hk
      rw [cache_get_fst_none_iff] at hk ⊢
      intro l1 hl1
      simp only [Option.some.injEq] at hl1
      subst hl1
      exact lru.lookup_Get_none l key k (hk l hl)

/-- An `add` on a well-formed local cache with a non-negative limit returns, keeps the
cache well formed, adds at most one entry and keeps other absent keys absent. -/
theorem cache_add_step (fuel : Nat) (c : cache) (key : String) (v : ByteView)
    (hwf : ∀ l, c.lru = some l → l.maxBytes = c.cacheBytes ∧ lru.Accounted l)
    (hcb : 0 ≤ c.cacheBytes)
    (hfuel : (match c.lru with
      | none => 0
      | some l => l.Len) + 2 ≤ fuel) :
    ∃ c1, c.add fuel key v = some c1 ∧
      (∀ l, c1.lru = some l → l.maxBytes = c1.cacheBytes ∧ lru.Accounted l) ∧
      c1.cacheBytes = c.cacheBytes ∧
      (match c1.lru with
        | none => 0
        | some l => l.Len) ≤ (match c.lru with
        | none => 0
        | some l => l.Len) + 1 ∧
      ∀ k, k ≠ key → (c.get k).1 = none → (c1.get k).1 = none := by
  have key_fact : ∀ l : lru.Cache ByteView, l.maxBytes = c.cacheBytes → lru.Accounted l →
      l.ll.length + 2 ≤ fuel →
      ∃ l1, l.Add fuel key v = some l1 ∧ l1.maxBytes = c.cacheBytes ∧ lru.Accounted l1 ∧
        l1.ll.length ≤ l.ll.length + 1 ∧
        ∀ k, k ≠ key → lru.lookup l.ll k = none → lru.lookup l1.ll k = none := by
    intro l hmb hacc hf
    obtain ⟨l1, h1, h2, h3⟩ := lru.step_returns fuel l (lru.Op.add key v) hacc
      (by rw [hmb]; exact hcb) hf
    refine ⟨l1, h1, by rw [h2, hmb], lru.accounted_step fuel l l1 _ hacc h1, h3, ?_⟩
    intro k hne hk
    exact lru.lookup_evictLoop_none fuel _ l1 k (lru.lookup_insert_none l key k v hne hk) h1
  unfold cache.add
  cases hl : c.lru with
  | none =>
    simp only [hl] at hfuel
    obtain ⟨l1, h1, h2, h3, h4, _⟩ := key_fact (lru.New c.cacheBytes false) rfl
      (lru.accounted_New _ _) (by simp only [lru.New, List.length_nil]; omega)
    refine ⟨{ c with lru := some l1 }, by simp [h1], ?_, rfl, ?_, ?_⟩
    · intro l hl1
      simp only [Option.some.injEq] at hl1
      subst hl1
      exact ⟨h2, h3⟩
    · simpa [lru.Cache.Len, lru.New] using h4
    · intro k hne _
      rw [cache_get_fst_none_iff]
      intro l2 hl2
      simp only [Option.some.injEq] at hl2
      subst hl2
      obtain ⟨l1b, h1b, _, _, _, h5b⟩ := key_fact (lru.New c.cacheBytes false) rfl
        (lru.accounted_New _ _) (by simp only [lru.New, List.length_nil]; omega)
      rw [h1] at h1b
      cases h1b
      exact h5b k hne (by simp [lru.New, lru.lookup])
  | some l =>
    simp only [hl] at hfuel
    obtain ⟨hmb, hacc⟩ := hwf l hl
    obtain ⟨l1, h1, h2, h3, h4, h5⟩ := key_fact l hmb hacc
      (by simpa [lru.Cache.Len] using hfuel)
    refine ⟨{ c with lru := some l1 }, by simp [h1], ?_, rfl, ?_, ?_⟩
    · intro l2 hl2
      simp only [Option.some.injEq] at hl2
      subst hl2
      exact ⟨h2, h3⟩
    · simpa [lru.Cache.Len] using h4
    · intro k hne hk
      rw [cache_get_fst_none_iff] at hk ⊢
      intro l2 hl2
      simp only [Option.some.injEq] at hl2
      subst hl2
      exact h5 k hne (hk l hl)

/-- One `Get` on a Group without peers returns, keeps the invariant, adds at most one
entry, and leaves every other key that was absent from the local cache absent. -/
theorem Get_quiet_step (fuel : Nat) (g : Group) (key : String)
    (hq : g.Quiet) (hfuel : g.held + 2 ≤ fuel) :
    ∃ r g1, g.Get fuel key = some (r, g1) ∧ g1.Quiet ∧ g1.getter = g.getter ∧
      g1.mainCache.cacheBytes = g.mainCache.cacheBytes ∧ g1.held ≤ g.held + 1 ∧
      ∀ k, k ≠ key → (g.mainCache.get k).1 = none → (g1.mainCache.get k).1 = none := by
  obtain ⟨hwf, hpeers, hloader, hcb⟩ := hq
  by_cases hk : key = ""
  · subst hk
    exact ⟨_, g, Get_empty fuel g, ⟨hwf, hpeers, hloader, hcb⟩, rfl, rfl, Nat.le_succ _,
      fun k _ h => h⟩
  have hidle : g.Idle key := by
    simp [Group.Idle, hloader, singleflight.find]
  have hdel : singleflight.delete (g.loader.m.getD []) key = [] := by
    simp [hloader, singleflight.delete]
  cases hget : (g.mainCache.get key).1 with
  | some v =>
    obtain ⟨h1, h2, h3, h4⟩ := cache_get_step g.mainCache key hwf
    refine ⟨_, _, Get_cache_hit fuel g key v hk hget, ⟨h1, hpeers, hloader, ?_⟩, rfl, h2, ?_,
      fun k _ h => h4 k h⟩
    · show 0 ≤ (g.mainCache.get key).2.cacheBytes
      rw [h2]
      exact hcb
    · show (match (g.mainCache.get key).2.lru with
        | none => 0
        | some l => l.Len) ≤ g.held + 1
      rw [h3]
      exact Nat.le_succ _
  | none =>
    cases hsrc : g.getter key with
    | error err =>
      refine ⟨_, _, Get_local_failure fuel g key err hpeers hk hget hidle hsrc,
        ⟨hwf, hpeers, ?_, hcb⟩, rfl, rfl, Nat.le_succ _, fun k _ h => h⟩
      simp [hdel]
    | ok v =>
      obtain ⟨c1, h1, h2, h3, h4, h5⟩ := cache_add_step fuel g.mainCache key (ByteView.mk v)
        hwf hcb hfuel
      refine ⟨_, _, Get_local_success fuel g key v c1 hpeers hk hget hidle hsrc h1,
        ⟨h2, hpeers, ?_, ?_⟩, rfl, h3, h4, h5⟩
      · simp [hdel]
      · show 0 ≤ c1.cacheBytes
        rw [h3]
        exact hcb

end geecache

namespace geecache

open singleflight (Error)

/-- Any sequence of `Get` calls on a Group without peers returns and keeps the
invariant; keys not asked for stay absent from the local cache. -/
theorem gets_quiet (fuel : Nat) (keys : List String) (g : Group)
    (hq : g.Quiet) (hfuel : g.held + keys.length + 2 ≤ fuel) :
    ∃ g1, gets fuel g keys = some g1 ∧ g1.Quiet ∧ g1.getter = g.getter ∧
      g1.mainCache.cacheBytes = g.mainCache.cacheBytes ∧
      g1.held ≤ g.held + keys.length ∧
      ∀ k, k ∉ keys → (g.mainCache.get k).1 = none → (g1.mainCache.get k).1 = none := by
  induction keys generalizing g with
  | nil => exact ⟨g, rfl, hq, rfl, rfl, le_refl _, fun k _ h => h⟩
  | cons key keys ih =>
    simp only [List.length_cons] at hfuel
    obtain ⟨r, g1, h1, h2, h3, h4, h5, h6⟩ := Get_quiet_step fuel g key hq (by omega)
    obtain ⟨g2, k1, k2, k3, k4, k5, k6⟩ := ih g1 h2 (by omega)
    refine ⟨g2, by simp [gets, h1, k1], k2, by rw [k3, h3], by rw [k4, h4], ?_, ?_⟩
    · simp only [List.length_cons]
      omega
    · intro k hk habs
      have hne : k ≠ key := fun h => hk (h ▸ List.mem_cons_self _ _)
      have hnot : k ∉ keys := fun h => hk (List.mem_cons_of_mem _ h)
      exact k6 k hnot (h6 k hne habs)

/-- The Group `NewGroup` creates: an empty local cache, no peers, nothing in flight. -/
theorem NewGroup_spec (name : String) (cacheBytes : Int) (source : Getter) :
    ∃ g0, NewGroup name cacheBytes (some source) = some g0 ∧ g0.getter = source ∧
      g0.mainCache.cacheBytes = cacheBytes ∧ g0.held = 0 ∧
      (0 ≤ cacheBytes → g0.Quiet) ∧ ∀ k, (g0.mainCache.get k).1 = none := by
  refine ⟨_, rfl, rfl, rfl, rfl, ?_, fun k => rfl⟩
  intro hcb
  refine ⟨?_, rfl, rfl, hcb⟩
  intro l hl
  simp at hl

/-- C7 (cache-then-fetch): take a Group created by `NewGroup` with no peer transport
registered, a non-empty key `k` for which the local source returns bytes `v` without
error, with `len(k) + len(v) <= cacheBytes` or `cacheBytes = 0`, and any earlier `Get`
calls for other keys.  Then the first `Get(k)` returns `v` with no error, a second
`Get(k)` also returns `v` with no error, and across the two calls the local source is
invoked exactly once: the calls made are the cache lookup, the coalescer, the source
and the cache insertion for the first `Get`, and the cache lookup alone for the
second. -/
theorem C7_cache_then_fetch (name : String) (cacheBytes : Int) (source : Getter)
    (prior : List String) (k : String) (v : List UInt8)
    (hk : k ≠ "") (hfirst : k ∉ prior) (hsrc : source k = .ok v)
    (hfit : cacheBytes = 0 ∨ (strLen k : Int) + (v.length : Int) ≤ cacheBytes) :
    ∃ g0, NewGroup name cacheBytes (some source) = some g0 ∧
      ∀ fuel, prior.length + 2 ≤ fuel →
        ∃ g g1 g2, gets fuel g0 prior = some g ∧
          g.Get fuel k = some ((ByteView.mk v, none), g1) ∧
          g1.Get fuel k = some ((ByteView.mk v, none), g2) ∧
          sourceCalls g2.trace = sourceCalls g.trace + 1 ∧
          g2.trace = g.trace ++ [Event.cacheGet k, Event.loaderDo k, Event.getterGet k,
            Event.cacheAdd k, Event.cacheGet k] := by
  obtain ⟨g0, hnew, hg1, hg2, hg3, hg4, hg5⟩ := NewGroup_spec name cacheBytes source
  refine ⟨g0, hnew, ?_⟩
  intro fuel hfuel
  have hcb : 0 ≤ cacheBytes := by
    rcases hfit with h | h
    · omega
    · omega
  obtain ⟨g, h1, h2, h3, h4, h5, h6⟩ := gets_quiet fuel prior g0 (hg4 hcb)
    (by rw [hg3]; omega)
  have habs : (g.mainCache.get k).1 = none := h6 k hfirst (hg5 k)
  obtain ⟨hwf, hpeers, hloader, _⟩ := h2
  have hidle : g.Idle k := by
    simp [Group.Idle, hloader, singleflight.find]
  have hheld : g.held + 2 ≤ fuel := by
    rw [hg3] at h5
    omega
  obtain ⟨g1, g2, k1, k2, k3⟩ := Get_twice_local fuel g k v hwf hpeers hk habs hidle
    (by rw [h3, hg1]; exact hsrc) (by rw [h4, hg2]; exact hfit) hheld
  refine ⟨g, g1, g2, h1, k1, k2, ?_, k3⟩
  rw [k3, sourceCalls_append]
  simp [sourceCalls]

/-- C7 at the spec's example: limit 1024, source mapping "k1" to "v1", after an
earlier `Get` of another key. -/
theorem C7_cache_then_fetch_witness :
    ∃ g0, NewGroup "scores" 1024 (some exampleSource) = some g0 ∧
      ∀ fuel, ["k0"].length + 2 ≤ fuel →
        ∃ g g1 g2, gets fuel g0 ["k0"] = some g ∧
          g.Get fuel "k1" = some ((ByteView.mk [118, 49], none), g1) ∧
          g1.Get fuel "k1" = some ((ByteView.mk [118, 49], none), g2) ∧
          sourceCalls g2.trace = sourceCalls g.trace + 1 ∧
          g2.trace = g.trace ++ [Event.cacheGet "k1", Event.loaderDo "k1",
            Event.getterGet "k1", Event.cacheAdd "k1", Event.cacheGet "k1"] :=
  C7_cache_then_fetch "scores" 1024 exampleSource ["k0"] "k1" [118, 49]
    (by decide) (by decide) rfl (by decide)

end geecache

/-! ## Eviction cache: an entry larger than the limit, and a negative limit -/

namespace lru

variable {V : Type}

theorem RemoveOldest_ll [Value V] (c : Cache V) : c.RemoveOldest.ll = c.ll.dropLast := by
  unfold Cache.RemoveOldest
  cases hl : c.ll.getLast? with
  | none =>
    have : c.ll = [] := by simpa using hl
    simp [this]
  | some kv => rfl

/-- The eviction loop leaves a front segment of the list. -/
theorem evictLoop_prefix [Value V] (fuel : Nat) (c c1 : Cache V)
    (hrun : evictLoop fuel c = some c1) : ∃ n, c1.ll = c.ll.take n := by
  induction fuel generalizing c with
  | zero => simp [evictLoop] at hrun
  | succ m ih =>
    unfold evictLoop at hrun
    split at hrun
    · obtain ⟨n, hn⟩ := ih c.RemoveOldest hrun
      rw [RemoveOldest_ll, List.dropLast_eq_take, List.take_take] at hn
      exact ⟨_, hn⟩
    · cases hrun
      exact ⟨_, (List.take_length _).symm⟩

theorem insert_ll_sublist [Value V] (c : Cache V) (key : String) (value : V) :
    ∃ rest, (c.insert key value).ll = { key := key, value := value } :: rest ∧
      rest.Sublist c.ll := by
  unfold Cache.insert
  cases hl : lookup c.ll key with
  | none => exact ⟨c.ll, rfl, List.Sublist.refl _⟩
  | some ele =>
    have hk := lookup_key c.ll key ele hl
    refine ⟨remove c.ll ele.key, ?_, remove_sublist c.ll ele.key⟩
    simp [MoveToFront, hk]

/-- An `Add` of an entry larger than a positive limit returns with an empty cache,
provided no value held reports a negative length. -/
theorem Add_oversize [Value V] (fuel : Nat) (c : Cache V) (key : String) (value : V)
    (hacc : Accounted c) (hnn : NonNegLen c.ll) (hpos : 0 < c.maxBytes)
    (hbig : c.maxBytes < (strLen key : Int) + (Value.Len value : Int))
    (hfuel : c.ll.length + 2 ≤ fuel) :
    ∃ c1, c.Add fuel key value = some c1 ∧ c1.ll = [] ∧ Accounted c1 ∧
      c1.maxBytes = c.maxBytes := by
  have hmb := maxBytes_insert c key value
  have hlen := length_insert_le c key value
  have hacc0 := accounted_insert c key value hacc
  obtain ⟨c1, hc1⟩ := evictLoop_terminates fuel (c.insert key value) hacc0
    (by rw [hmb]; omega) (by omega)
  have hacc1 := accounted_evictLoop fuel _ c1 hacc0 hc1
  have hmb1 : c1.maxBytes = c.maxBytes := by rw [evictLoop_maxBytes fuel _ c1 hc1, hmb]
  refine ⟨c1, hc1, ?_, hacc1, hmb1⟩
  have hexit := evictLoop_exit fuel _ c1 hc1
  obtain ⟨rest, hrest, hsub⟩ := insert_ll_sublist c key value
  obtain ⟨n, hn⟩ := evictLoop_prefix fuel _ c1 hc1
  rw [hrest] at hn
  cases n with
  | zero => simpa using hn
  | succ n =>
    exfalso
    apply hexit
    rw [hmb1]
    refine ⟨by omega, ?_⟩
    rw [hacc1, hn, List.take_succ_cons, sizeSum_cons]
    have h0 := sizeSum_nonneg (List.take n rest)
      (nonNegLen_of_sublist _ _ ((List.take_sublist n rest).trans hsub) hnn)
    simp only [entry.size]
    omega

/-- With a negative limit and no value reporting a negative length the eviction loop
never exits: its condition stays true once the cache is empty and `RemoveOldest` has
nothing left to remove. -/
theorem evictLoop_negative [Value V] (fuel : Nat) (c : Cache V) (hacc : Accounted c)
    (hnn : NonNegLen c.ll) (hneg : c.maxBytes < 0) : evictLoop fuel c = none := by
  induction fuel generalizing c with
  | zero => rfl
  | succ n ih =>
    unfold evictLoop
    have h0 := sizeSum_nonneg c.ll hnn
    have hcond : c.maxBytes ≠ 0 ∧ c.maxBytes < c.nbytes := by
      rw [hacc]
      constructor <;> omega
    rw [if_pos hcond]
    refine ih c.RemoveOldest (accounted_RemoveOldest c hacc) ?_
      (by rw [maxBytes_RemoveOldest]; exact hneg)
    rw [RemoveOldest_ll]
    exact nonNegLen_of_sublist _ _ (List.dropLast_sublist c.ll) hnn

end lru

/-! ## Group orchestrator: a failing peer -/

namespace geecache

open singleflight (Error)

/-- The path of `Get` when the picked peer fails: after the failed fetch the local
path is taken, whatever it does. -/
theorem Get_peer_failure (fuel : Nat) (g : Group) (pp : PeerPicker) (peer : PeerGetter)
    (k : String) (perr : Error)
    (hpeers : g.peers = some pp) (hk : k ≠ "")
    (hmiss : (g.mainCache.get k).1 = none) (hidle : g.Idle k)
    (hpick : pp.PickPeer k = some peer)
    (hfetch : peer.Get { Group := g.name, Key := k } = .error perr) :
    g.Get fuel k =
      (Group.getLocally fuel
        { g with trace := g.trace ++ [Event.cacheGet k] ++ [Event.loaderDo k]
          ++ [Event.pickPeer k] ++ [Event.peerGet { Group := g.name, Key := k }] } k).map
        (fun r => (r.1,
          { r.2 with loader := { m := some (singleflight.delete (g.loader.m.getD []) k) } })) := by
  unfold Group.Idle at hidle
  simp only [Group.Get, hk, if_false, hmiss, cache_get_miss g.mainCache k hmiss, Group.load]
  rw [Do_idle _ _ _ _ hidle]
  simp only [Group.loadFn, hpeers, hpick, Group.getFromPeer, hfetch, Group.getLocally]
  cases hsrc : g.getter k with
  | error err => simp
  | ok v =>
    simp only [Group.populateCache]
    cases g.mainCache.add fuel k { b := cloneBytes v } <;> simp

/-- A `ByteView` reports the length of its payload, which is never negative. -/
theorem nonNegLen_ByteView (ll : List (lru.entry ByteView)) : lru.NonNegLen ll :=
  fun e _ => Int.natCast_nonneg e.value.b.length

/-- An `add` of an entry larger than a positive limit leaves the key absent. -/
theorem cache_add_oversize (fuel : Nat) (c : cache) (k : String) (v : ByteView)
    (hwf : ∀ l, c.lru = some l → l.maxBytes = c.cacheBytes ∧ lru.Accounted l)
    (hpos : 0 < c.cacheBytes)
    (hbig : c.cacheBytes < (strLen k : Int) + (v.b.length : Int))
    (hfuel : (match c.lru with
      | none => 0
      | some l => l.Len) + 2 ≤ fuel) :
    ∃ c1, c.add fuel k v = some c1 ∧ (c1.get k).1 = none := by
  unfold cache.add
  cases hl : c.lru with
  | none =>
    simp only [hl] at hfuel
    obtain ⟨l1, h1, h2, _, _⟩ := lru.Add_oversize fuel (lru.New c.cacheBytes false) k v
      (lru.accounted_New _ _) (nonNegLen_ByteView _) hpos hbig
      (by simp only [lru.New, List.length_nil]; omega)
    refine ⟨{ c with lru := some l1 }, by simp [h1], ?_⟩
    simp [cache.get, lru.Cache.Get, h2, lru.lookup]
  | some l =>
    simp only [hl] at hfuel
    obtain ⟨hmb, hacc⟩ := hwf l hl
    obtain ⟨l1, h1, h2, _, _⟩ := lru.Add_oversize fuel l k v hacc (nonNegLen_ByteView _)
      (by rw [hmb]; exact hpos) (by rw [hmb]; exact hbig)
      (by simpa [lru.Cache.Len] using hfuel)
    refine ⟨{ c with lru := some l1 }, by simp [h1], ?_⟩
    simp [cache.get, lru.Cache.Get, h2, lru.lookup]

/-- C10 evaluated on the code, where it fails: limit 1, a picked peer whose fetch
fails, and a source yielding the two bytes "v1" for "k1".  `Get("k1")` returns "v1"
with no error, but the entry of four bytes exceeds the limit and is evicted by the
very `Add` that inserted it: afterwards "k1" is not in the local cache, which is
empty. -/
theorem C10_oversize_not_retained :
    ((exampleGroup 1 (some peerDown)).Get 3 "k1").map Prod.fst
      = some (ByteView.mk [118, 49], none) ∧
    ((exampleGroup 1 (some peerDown)).Get 3 "k1").map
        (fun r => (r.2.mainCache.get "k1").1) = some none ∧
    ((exampleGroup 1 (some peerDown)).Get 3 "k1").map (fun r => r.2.held) = some 0 := by
  decide

end geecache

namespace geecache

open singleflight (Error)

theorem getLocally_ok (fuel : Nat) (g : Group) (k : String) (v : List UInt8) (c1 : cache)
    (t : List Event)
    (hsrc : g.getter k = .ok v) (hadd : g.mainCache.add fuel k (ByteView.mk v) = some c1) :
    Group.getLocally fuel { g with trace := t } k = some ((ByteView.mk v, none),
      { g with mainCache := c1, trace := t ++ [Event.getterGet k] ++ [Event.cacheAdd k] }) := by
  simp [Group.getLocally, hsrc, Group.populateCache, hadd, cloneBytes]

theorem getLocally_error (fuel : Nat) (g : Group) (k : String) (err : Error)
    (t : List Event) (hsrc : g.getter k = .error err) :
    Group.getLocally fuel { g with trace := t } k = some ((ByteView.mk [], some err),
      { g with trace := t ++ [Event.getterGet k] }) := by
  simp [Group.getLocally, hsrc]

/-- What the local path returns does not depend on the calls recorded so far. -/
theorem getLocally_fst_trace (fuel : Nat) (g : Group) (k : String) (t : List Event) :
    (Group.getLocally fuel { g with trace := t } k).map Prod.fst
      = (g.getLocally fuel k).map Prod.fst := by
  simp only [Group.getLocally, Group.populateCache]
  cases g.getter k with
  | error err => rfl
  | ok v =>
    simp only []
    cases g.mainCache.add fuel k { b := cloneBytes v } <;> simp

/-- C10 as amended (peer failure falls back to the local source): for every Group in
a well-formed state with `cacheBytes >= 0` and a registered peer picker, and every
non-empty key `k` absent from the local cache (no call for `k` being in flight) such
that `PickPeer(k)` returns a peer whose fetch fails with any error, `Get(k)` returns
exactly what the local-source path returns.  If the source yields bytes `v`, the
result is `v` with no error (the peer's error is not returned), the source was invoked
once, and `k` is held by the local cache afterwards exactly when `cacheBytes = 0` or
`len(k) + len(v) <= cacheBytes`.  If the source fails, the source's error is the one
returned and the local cache is unchanged. -/
theorem C10_peer_failure_falls_back (fuel : Nat) (g : Group) (pp : PeerPicker)
    (peer : PeerGetter) (k : String) (perr : Error)
    (hwf : g.WF) (hcb : 0 ≤ g.mainCache.cacheBytes)
    (hpeers : g.peers = some pp) (hk : k ≠ "")
    (hmiss : (g.mainCache.get k).1 = none) (hidle : g.Idle k)
    (hpick : pp.PickPeer k = some peer)
    (hfetch : peer.Get { Group := g.name, Key := k } = .error perr)
    (hfuel : g.held + 2 ≤ fuel) :
    (g.Get fuel k).map Prod.fst = (g.getLocally fuel k).map Prod.fst ∧
    (∀ v, g.getter k = .ok v →
      ∃ g1, g.Get fuel k = some ((ByteView.mk v, none), g1) ∧
        sourceCalls g1.trace = sourceCalls g.trace + 1 ∧
        ((g1.mainCache.get k).1 = some (ByteView.mk v) ↔
          (g.mainCache.cacheBytes = 0 ∨
            (strLen k : Int) + (v.length : Int) ≤ g.mainCache.cacheBytes))) ∧
    (∀ err, g.getter k = .error err →
      ∃ g1, g.Get fuel k = some ((ByteView.mk [], some err), g1) ∧
        sourceCalls g1.trace = sourceCalls g.trace + 1 ∧
        g1.mainCache = g.mainCache) := by
  have hpath := Get_peer_failure fuel g pp peer k perr hpeers hk hmiss hidle hpick hfetch
  refine ⟨?_, ?_, ?_⟩
  · rw [hpath, Option.map_map]
    exact getLocally_fst_trace fuel g k _
  · intro v hsrc
    by_cases hfit : g.mainCache.cacheBytes = 0 ∨
        (strLen k : Int) + (v.length : Int) ≤ g.mainCache.cacheBytes
    · obtain ⟨c1, hadd, hget, _, _⟩ := cache_add_fits fuel g.mainCache k (ByteView.mk v) hwf
        hfit hfuel
      rw [hpath, getLocally_ok fuel g k v c1 _ hsrc hadd]
      refine ⟨_, rfl, ?_, ?_⟩
      · simp [sourceCalls, List.countP_append]
      · simp [hget, hfit]
    · have hpos : 0 < g.mainCache.cacheBytes := by omega
      obtain ⟨c1, hadd, hget⟩ := cache_add_oversize fuel g.mainCache k (ByteView.mk v) hwf
        hpos (by simp only []; omega) hfuel
      rw [hpath, getLocally_ok fuel g k v c1 _ hsrc hadd]
      refine ⟨_, rfl, ?_, ?_⟩
      · simp [sourceCalls, List.countP_append]
      · simp [hget, hfit]
  · intro err hsrc
    rw [hpath, getLocally_error fuel g k err _ hsrc]
    refine ⟨_, rfl, ?_, rfl⟩
    simp [sourceCalls, List.countP_append]

/-- C10 as amended, at a concrete input: limit 1024, a picked peer whose fetch fails,
the example source and the key "k1". -/
theorem C10_peer_failure_falls_back_witness :
    ((exampleGroup 1024 (some peerDown)).Get 2 "k1").map Prod.fst
      = ((exampleGroup 1024 (some peerDown)).getLocally 2 "k1").map Prod.fst ∧
    (∀ v, (exampleGroup 1024 (some peerDown)).getter "k1" = .ok v →
      ∃ g1, (exampleGroup 1024 (some peerDown)).Get 2 "k1"
          = some ((ByteView.mk v, none), g1) ∧
        sourceCalls g1.trace = sourceCalls (exampleGroup 1024 (some peerDown)).trace + 1 ∧
        ((g1.mainCache.get "k1").1 = some (ByteView.mk v) ↔
          ((exampleGroup 1024 (some peerDown)).mainCache.cacheBytes = 0 ∨
            (strLen "k1" : Int) + (v.length : Int)
              ≤ (exampleGroup 1024 (some peerDown)).mainCache.cacheBytes))) ∧
    (∀ err, (exampleGroup 1024 (some peerDown)).getter "k1" = .error err →
      ∃ g1, (exampleGroup 1024 (some peerDown)).Get 2 "k1"
          = some ((ByteView.mk [], some err), g1) ∧
        sourceCalls g1.trace = sourceCalls (exampleGroup 1024 (some peerDown)).trace + 1 ∧
        g1.mainCache = (exampleGroup 1024 (some peerDown)).mainCache) :=
  C10_peer_failure_falls_back 2 (exampleGroup 1024 (some peerDown))
    { PickPeer := fun _ => some peerDown } peerDown "k1" "connection refused"
    (by intro l hl; simp [exampleGroup] at hl) (by decide) rfl (by decide) rfl rfl rfl rfl
    (by decide)

end geecache

/-! ## Group orchestrator: well-formedness is an invariant -/

namespace geecache

open singleflight (Error)

theorem cache_add_wf (fuel : Nat) (c c1 : cache) (k : String) (v : ByteView)
    (hwf : ∀ l, c.lru = some l → l.maxBytes = c.cacheBytes ∧ lru.Accounted l)
    (hadd : c.add fuel k v = some c1) :
    ∀ l, c1.lru = some l → l.maxBytes = c1.cacheBytes ∧ lru.Accounted l := by
  have key_fact : ∀ l l1 : lru.Cache ByteView, l.maxBytes = c.cacheBytes → lru.Accounted l →
      l.Add fuel k v = some l1 → l1.maxBytes = c.cacheBytes ∧ lru.Accounted l1 := by
    intro l l1 hmb hacc h1
    exact ⟨by rw [lru.step_maxBytes fuel l l1 (lru.Op.add k v) h1, hmb],
      lru.accounted_step fuel l l1 (lru.Op.add k v) hacc h1⟩
  unfold cache.add at hadd
  cases hl : c.lru with
  | none =>
    simp only [hl, Option.map_eq_some'] at hadd
    obtain ⟨l1, h1, rfl⟩ := hadd
    intro l2 hl2
    simp only [Option.some.injEq] at hl2
    subst hl2
    exact key_fact _ _ rfl (lru.accounted_New _ _) h1
  | some l =>
    simp only [hl, Option.map_eq_some'] at hadd
    obtain ⟨l1, h1, rfl⟩ := hadd
    obtain ⟨hmb, hacc⟩ := hwf l hl
    intro l2 hl2
    simp only [Option.some.injEq] at hl2
    subst hl2
    exact key_fact _ _ hmb hacc h1

theorem getLocally_wf (fuel : Nat) (g g1 : Group) (k : String) (r : ByteView × Option Error)
    (hwf : g.WF) (h : g.getLocally fuel k = some (r, g1)) : g1.WF := by
  unfold Group.getLocally at h
  cases hsrc : g.getter k with
  | error err =>
    simp only [hsrc, Option.some.injEq, Prod.mk.injEq] at h
    rw [← h.2]
    exact hwf
  | ok v =>
    simp only [hsrc, Group.populateCache, Option.map_map, Option.map_eq_some',
      Function.comp_apply, Prod.mk.injEq] at h
    obtain ⟨c1, hadd, _, rfl⟩ := h
    exact cache_add_wf fuel g.mainCache c1 k _ hwf hadd

theorem loadFn_wf (fuel : Nat) (k : String) (s s1 : Group × ByteView)
    (r : ByteView × Option Error) (hwf : s.1.WF)
    (h : Group.loadFn fuel k s = some (r, s1)) : s1.1.WF := by
  unfold Group.loadFn at h
  cases hp : s.1.peers with
  | none =>
    simp only [hp, Option.map_eq_some', Prod.mk.injEq] at h
    obtain ⟨⟨r2, g2⟩, hloc, _, rfl⟩ := h
    exact getLocally_wf fuel s.1 g2 k r2 hwf hloc
  | some pp =>
    simp only [hp] at h
    cases hpick : pp.PickPeer k with
    | none =>
      simp only [hpick, Option.map_eq_some', Prod.mk.injEq] at h
      obtain ⟨⟨r2, g2⟩, hloc, _, rfl⟩ := h
      refine getLocally_wf fuel _ g2 k r2 ?_ hloc
      exact hwf
    | some peer =>
      simp only [hpick, Group.getFromPeer] at h
      cases hfetch : peer.Get { Group := s.1.name, Key := k } with
      | ok res =>
        simp only [hfetch, Option.some.injEq, Prod.mk.injEq] at h
        rw [← h.2]
        exact hwf
      | error err =>
        simp only [hfetch, Option.map_eq_some', Prod.mk.injEq] at h
        obtain ⟨⟨r2, g2⟩, hloc, _, rfl⟩ := h
        refine getLocally_wf fuel _ g2 k r2 ?_ hloc
        exact hwf

theorem load_wf (fuel : Nat) (g g1 : Group) (k : String) (r : ByteView × Option Error)
    (hwf : g.WF) (h : g.load fuel k = some (r, g1)) : g1.WF := by
  unfold Group.load at h
  cases hdo : g.loader.Do k (Group.loadFn fuel k)
      ({ g with trace := g.trace ++ [Event.loaderDo k] }, ByteView.mk []) with
  | none => simp [hdo] at h
  | some res =>
    obtain ⟨⟨viewi, err⟩, ⟨g2, value⟩, loader⟩ := res
    have hg2 : g2.WF := by
      unfold singleflight.Group.Do singleflight.Group.enter at hdo
      cases hfind : singleflight.find (g.loader.m.getD []) k with
      | some c =>
        simp only [hfind] at hdo
        split at hdo
        · simp only [Option.map_eq_some', Prod.mk.injEq] at hdo
          obtain ⟨_, _, hres⟩ := hdo
          rw [← hres.2.1.1]
          exact hwf
        · simp at hdo
      | none =>
        simp only [hfind] at hdo
        cases hfn : Group.loadFn fuel k
            ({ g with trace := g.trace ++ [Event.loaderDo k] }, ByteView.mk []) with
        | none => simp [hfn] at hdo
        | some out =>
          simp only [hfn, Option.some.injEq, Prod.mk.injEq] at hdo
          have := loadFn_wf fuel k _ out.2 out.1 hwf hfn
          rw [hdo.2.1] at this
          exact this
    cases err with
    | none =>
      simp only [hdo, Option.some.injEq, Prod.mk.injEq] at h
      rw [← h.2]
      exact hg2
    | some e =>
      simp only [hdo, Option.some.injEq, Prod.mk.injEq] at h
      rw [← h.2]
      exact hg2

/-- Every `Get` that returns leaves the Group's local cache well formed: the
well-formedness assumed of a Group state holds in every state a Group can reach. -/
theorem Get_wf (fuel : Nat) (g g1 : Group) (k : String) (r : ByteView × Option Error)
    (hwf : g.WF) (h : g.Get fuel k = some (r, g1)) : g1.WF := by
  unfold Group.Get at h
  split at h
  · simp only [Option.some.injEq, Prod.mk.injEq] at h
    rw [← h.2]
    exact hwf
  · have hstep := (cache_get_step g.mainCache k hwf).1
    cases hget : (g.mainCache.get k).1 with
    | some v =>
      simp only [hget, Option.some.injEq, Prod.mk.injEq] at h
      rw [← h.2]
      exact hstep
    | none =>
      simp only [hget] at h
      refine load_wf fuel _ g1 k r ?_ h
      exact hstep

end geecache

/-! ## Group orchestrator: a failing source -/

namespace geecache

open singleflight (Error)

theorem find_delete {α : Type} (m : List (String × singleflight.call α)) (key : String) :
    singleflight.find (singleflight.delete m key) key = none := by
  simp [singleflight.find, singleflight.delete, List.find?_eq_none]

/-- The path of `Get` on a miss when no peer is picked and the source fails: the
source's error is returned, and nothing but the trace and the coalescer's (empty)
record for the key differs afterwards. -/
theorem Get_source_failure (fuel : Nat) (g : Group) (k : String) (err : Error)
    (hk : k ≠ "") (hmiss : (g.mainCache.get k).1 = none) (hidle : g.Idle k)
    (hnopeer : g.NoPeer k) (hsrc : g.getter k = .error err) :
    ∃ g1, g.Get fuel k = some ((ByteView.mk [], some err), g1) ∧
      g1.mainCache = g.mainCache ∧ g1.getter = g.getter ∧ g1.peers = g.peers ∧
      g1.Idle k ∧ sourceCalls g1.trace = sourceCalls g.trace + 1 := by
  unfold Group.NoPeer at hnopeer
  cases hpeers : g.peers with
  | none =>
    refine ⟨_, Get_local_failure fuel g k err hpeers hk hmiss hidle hsrc, rfl, rfl, hpeers, ?_,
      ?_⟩
    · exact find_delete _ k
    · simp [sourceCalls, List.countP_append]
  | some pp =>
    rw [hpeers] at hnopeer
    have hget : g.Get fuel k = some ((ByteView.mk [], some err),
        { g with
          loader := { m := some (singleflight.delete (g.loader.m.getD []) k) }
          trace := g.trace ++ [Event.cacheGet k] ++ [Event.loaderDo k] ++ [Event.pickPeer k]
            ++ [Event.getterGet k] }) := by
      unfold Group.Idle at hidle
      simp only [Group.Get, hk, if_false, hmiss, cache_get_miss g.mainCache k hmiss,
        Group.load]
      rw [Do_idle _ _ _ _ hidle]
      simp [Group.loadFn, hpeers, hnopeer, Group.getLocally, hsrc]
    refine ⟨_, hget, rfl, rfl, hpeers, ?_, ?_⟩
    · exact find_delete _ k
    · simp [sourceCalls, List.countP_append]

/-- C11 (source failure is propagated and atomic): for every Group where no peer is
picked for a non-empty key `k` absent from the local cache (no call for `k` being in
flight), if the local source returns error `e` for `k` then `Get(k)` returns exactly
the error `e`, and the local cache is left unchanged: nothing is inserted for `k`, so
a later `Get(k)` invokes the source again. -/
theorem C11_source_failure_atomic (fuel : Nat) (g : Group) (k : String) (e : Error)
    (hk : k ≠ "") (hmiss : (g.mainCache.get k).1 = none) (hidle : g.Idle k)
    (hnopeer : g.NoPeer k) (hsrc : g.getter k = .error e) :
    ∃ g1 g2, g.Get fuel k = some ((ByteView.mk [], some e), g1) ∧
      g1.mainCache = g.mainCache ∧
      (g1.mainCache.get k).1 = none ∧
      sourceCalls g1.trace = sourceCalls g.trace + 1 ∧
      g1.Get fuel k = some ((ByteView.mk [], some e), g2) ∧
      sourceCalls g2.trace = sourceCalls g1.trace + 1 := by
  obtain ⟨g1, h1, h2, h3, h4, h5, h6⟩ :=
    Get_source_failure fuel g k e hk hmiss hidle hnopeer hsrc
  have hmiss1 : (g1.mainCache.get k).1 = none := by rw [h2]; exact hmiss
  have hnopeer1 : g1.NoPeer k := by
    unfold Group.NoPeer at hnopeer ⊢
    rw [h4]
    exact hnopeer
  obtain ⟨g2, k1, _, _, _, _, k6⟩ :=
    Get_source_failure fuel g1 k e hk hmiss1 h5 hnopeer1 (by rw [h3]; exact hsrc)
  exact ⟨g1, g2, h1, h2, hmiss1, h6, k1, k6⟩

/-- C11 at a concrete input: the example Group (no peers), whose source fails for
every key but "k1". -/
theorem C11_source_failure_atomic_witness :
    ∃ g1 g2, (exampleGroup 1024 none).Get 2 "k9"
        = some ((ByteView.mk [], some "no such key"), g1) ∧
      g1.mainCache = (exampleGroup 1024 none).mainCache ∧
      (g1.mainCache.get "k9").1 = none ∧
      sourceCalls g1.trace = sourceCalls (exampleGroup 1024 none).trace + 1 ∧
      g1.Get 2 "k9" = some ((ByteView.mk [], some "no such key"), g2) ∧
      sourceCalls g2.trace = sourceCalls g1.trace + 1 :=
  C11_source_failure_atomic 2 (exampleGroup 1024 none) "k9" "no such key"
    (by decide) rfl rfl trivial rfl

end geecache

/-! ## Hash ring: the virtual nodes held and their owners -/

namespace consistenthash

theorem ring_hash_replicas (replicas : Int) (fn : Option Hash) (calls : List (List String)) :
    (ring replicas fn calls).hash = (New replicas fn).hash ∧
    (ring replicas fn calls).replicas = replicas := by
  induction calls using List.reverseRecOn with
  | nil => exact ⟨rfl, rfl⟩
  | append_singleton calls call ih =>
    rw [ring_snoc]
    obtain ⟨h1, h2, _, _⟩ := foldl_addNode call (ring replicas fn calls)
    simp only [Map.Add]
    exact ⟨by rw [h1, ih.1], by rw [h2, ih.2]⟩

/-- The key sequence of a ring is a rearrangement of all virtual-node hashes added. -/
theorem ring_keys_perm (replicas : Int) (fn : Option Hash) (calls : List (List String)) :
    (ring replicas fn calls).keys.Perm (allVnodes replicas fn calls) := by
  induction calls using List.reverseRecOn with
  | nil => simp [ring, New, allVnodes]
  | append_singleton calls call ih =>
    rw [ring_snoc]
    obtain ⟨_, _, h3, _⟩ := foldl_addNode call (ring replicas fn calls)
    obtain ⟨hh, hr⟩ := ring_hash_replicas replicas fn calls
    simp only [Map.Add]
    rw [h3, hh, hr]
    refine (List.perm_insertionSort _ _).trans ?_
    simp only [allVnodes, List.flatten_append, List.flatMap_append, List.flatten_cons,
      List.flatten_nil, List.append_nil]
    exact List.Perm.append ih (List.Perm.refl _)

/-- Every virtual-node hash of a ring is mapped to one of the nodes added. -/
theorem ring_owner (replicas : Int) (fn : Option Hash) (calls : List (List String)) :
    ∀ h, h ∈ (ring replicas fn calls).keys →
      ∃ n, n ∈ calls.flatten ∧ (ring replicas fn calls).hashMap h = some n := by
  induction calls using List.reverseRecOn with
  | nil => simp [ring, New]
  | append_singleton calls call ih =>
    intro h hmem
    rw [ring_snoc] at hmem ⊢
    obtain ⟨_, _, h3, h4⟩ := foldl_addNode call (ring replicas fn calls)
    simp only [Map.Add] at hmem ⊢
    rw [mem_sortInts, h3, List.mem_append] at hmem
    rcases h4 h with ⟨n, hn, _, hval⟩ | ⟨hnot, hval⟩
    · exact ⟨n, by simp [hn], hval⟩
    · rcases hmem with hold | hnew
      · obtain ⟨n, hn, hv⟩ := ih h hold
        exact ⟨n, by simp [hn], by rw [hval, hv]⟩
      · rw [List.mem_flatMap] at hnew
        obtain ⟨n, hn, hx⟩ := hnew
        exact absurd hx (hnot n hn)

theorem Search_le (n : Nat) (f : Nat → Bool) : Search n f ≤ n := by
  have key : ∀ fuel i j, i ≤ j → searchLoop f fuel i j ≤ j := by
    intro fuel
    induction fuel with
    | zero =>
      intro i j hij
      simpa [searchLoop] using hij
    | succ fuel ih =>
      intro i j hij
      unfold searchLoop
      by_cases hlt : i < j
      · simp only [hlt, if_true]
        split
        · exact ih _ _ (by omega)
        · exact le_trans (ih _ _ (by omega)) (by omega)
      · simp only [hlt, if_false]
        exact hij
  exact key n 0 n (Nat.zero_le n)

theorem Get_of_keys_ne_nil (m : Map) (key : String) (hne : m.keys ≠ []) :
    m.Get key = load m.hashMap (m.keys.getD (m.idx key % m.keys.length) 0) := by
  have hlen : m.keys.length ≠ 0 := fun h => hne (List.length_eq_zero.mp h)
  simp [Map.Get, Map.idx, hlen]

theorem Get_of_keys_nil (m : Map) (key : String) (hnil : m.keys = []) : m.Get key = "" := by
  simp [Map.Get, hnil]

/-- A lookup returns the empty string or one of the nodes added. -/
theorem ring_Get_mem (replicas : Int) (fn : Option Hash) (calls : List (List String))
    (key : String) :
    ((ring replicas fn calls).keys = [] ∧ (ring replicas fn calls).Get key = "") ∨
    ((ring replicas fn calls).keys ≠ [] ∧ (ring replicas fn calls).Get key ∈ calls.flatten) := by
  by_cases hnil : (ring replicas fn calls).keys = []
  · exact Or.inl ⟨hnil, Get_of_keys_nil _ key hnil⟩
  · right
    refine ⟨hnil, ?_⟩
    have hpos : 0 < (ring replicas fn calls).keys.length := List.length_pos.mpr hnil
    have hlt := Nat.mod_lt ((ring replicas fn calls).idx key) hpos
    rw [Get_of_keys_ne_nil _ key hnil, List.getD_eq_getElem _ 0 hlt]
    obtain ⟨n, hn, hv⟩ := ring_owner replicas fn calls _ (List.getElem_mem hlt)
    simp only [load, hv, Option.getD_some]
    exact hn

theorem length_vnodes (hash : Hash) (replicas : Int) (key : String) :
    (vnodes hash replicas key).length = replicas.toNat := by
  simp [vnodes]

theorem allVnodes_eq_nil_iff (replicas : Int) (fn : Option Hash) (calls : List (List String)) :
    allVnodes replicas fn calls = [] ↔ calls.flatten = [] ∨ replicas ≤ 0 := by
  unfold allVnodes
  rw [List.flatMap_eq_nil_iff]
  constructor
  · intro h
    by_cases hc : calls.flatten = []
    · exact Or.inl hc
    · right
      obtain ⟨n, hn⟩ := List.exists_mem_of_ne_nil _ hc
      have := congrArg List.length (h n hn)
      rw [length_vnodes] at this
      simp only [List.length_nil] at this
      omega
  · rintro (hc | hr) n hn
    · rw [hc] at hn
      exact absurd hn (List.not_mem_nil n)
    · apply List.eq_nil_of_length_eq_zero
      rw [length_vnodes]
      omega

theorem ring_keys_eq_nil_iff (replicas : Int) (fn : Option Hash) (calls : List (List String)) :
    (ring replicas fn calls).keys = [] ↔ calls.flatten = [] ∨ replicas ≤ 0 := by
  rw [← allVnodes_eq_nil_iff replicas fn calls]
  constructor
  · intro h
    have := (ring_keys_perm replicas fn calls).symm
    rw [h] at this
    exact List.Perm.eq_nil this
  · intro h
    have := ring_keys_perm replicas fn calls
    rw [h] at this
    exact List.Perm.eq_nil this

end consistenthash

/-! ## Hash ring: repeated virtual-node hashes, and the node a lookup returns -/

namespace consistenthash

set_option maxRecDepth 100000 in
/-- C17 on the code, where it fails: with the default hash and one replica, adding the
node "a" in two `Add` calls appends its virtual-node hash twice; `keys` holds the
same value at both positions. -/
theorem C17_node_added_twice :
    (ring 1 none [["a"], ["a"]]).keys = [ChecksumIEEE "0a", ChecksumIEEE "0a"] ∧
    ¬ (ring 1 none [["a"], ["a"]]).keys.Nodup := by
  constructor
  · decide
  · decide

theorem nodup_of_nodup_allVnodes (replicas : Int) (fn : Option Hash)
    (calls : List (List String)) (hrep : 1 ≤ replicas)
    (h : (allVnodes replicas fn calls).Nodup) : calls.flatten.Nodup := by
  unfold allVnodes at h
  rw [List.nodup_flatMap] at h
  refine h.2.imp_of_mem ?_
  intro a b ha _ hdisj hab
  subst hab
  have hlen := length_vnodes (New replicas fn).hash replicas a
  have hne : vnodes (New replicas fn).hash replicas a ≠ [] := by
    intro hnil
    rw [hnil] at hlen
    simp only [List.length_nil] at hlen
    omega
  obtain ⟨x, hx⟩ := List.exists_mem_of_ne_nil _ hne
  exact hdisj hx hx

/-- C17 as amended (virtual-node hashes of the ring): for every hash function, replica
count and sequence of `Add` calls on a ring created by `New`, `keys` is sorted
ascending and is a rearrangement of the hashes `hash(str(i) + node)` of all virtual
nodes added, a node added again contributing its hashes again; so `keys` never
contains the same hash value more than once if and only if those hashes are pairwise
different.  In particular, with a replica count of at least one, `keys` does contain
a value more than once whenever some node identifier has been added more than
once. -/
theorem C17_keys_nodup_iff (replicas : Int) (fn : Option Hash) (calls : List (List String)) :
    (ring replicas fn calls).keys.Sorted (fun a b => a ≤ b) ∧
    (ring replicas fn calls).keys.Perm (allVnodes replicas fn calls) ∧
    ((ring replicas fn calls).keys.Nodup ↔ (allVnodes replicas fn calls).Nodup) ∧
    (1 ≤ replicas → ¬ calls.flatten.Nodup → ¬ (ring replicas fn calls).keys.Nodup) :=
  ⟨sorted_ring_keys replicas fn calls, ring_keys_perm replicas fn calls,
    (ring_keys_perm replicas fn calls).nodup_iff,
    fun hrep hdup hnd => hdup (nodup_of_nodup_allVnodes replicas fn calls hrep
      ((ring_keys_perm replicas fn calls).nodup_iff.mp hnd))⟩

/-- C17 as amended, at a concrete input: the default hash, two replicas, the nodes "a"
and "b" added and then "b" added again. -/
theorem C17_keys_nodup_iff_witness :
    ¬ (ring 2 none [["a", "b"], ["b"]]).keys.Nodup :=
  (C17_keys_nodup_iff 2 none [["a", "b"], ["b"]]).2.2.2 (by decide) (by decide)

/-- C20 (ring lookups return a configured node): for every hash function, every replica
count of at least one and every ring on which `Add` has been called with at least one
node identifier, the ring has virtual nodes, the index `idx % len(keys)` used by
`Get` is in range, the hash at that index is present in `hashMap`, and `Get(key)`
returns the node mapped there, which is one of the node identifiers passed to `Add`.
For every ring with no virtual nodes (no `Add`, `Add` of no nodes, or a replica count
of zero or less) `Get` returns "". -/
theorem C20_Get_returns_configured_node (replicas : Int) (fn : Option Hash)
    (calls : List (List String)) (key : String) :
    (1 ≤ replicas → calls.flatten ≠ [] →
      (ring replicas fn calls).keys ≠ [] ∧
      (ring replicas fn calls).idx key % (ring replicas fn calls).keys.length
        < (ring replicas fn calls).keys.length ∧
      ∃ n, n ∈ calls.flatten ∧
        (ring replicas fn calls).hashMap
          ((ring replicas fn calls).keys.getD
            ((ring replicas fn calls).idx key % (ring replicas fn calls).keys.length) 0)
          = some n ∧
        (ring replicas fn calls).Get key = n) ∧
    ((ring replicas fn calls).keys = [] → (ring replicas fn calls).Get key = "") ∧
    (calls.flatten = [] ∨ replicas ≤ 0 →
      (ring replicas fn calls).keys = [] ∧ (ring replicas fn calls).Get key = "") := by
  refine ⟨?_, fun hnil => Get_of_keys_nil _ key hnil, ?_⟩
  · intro hrep hnodes
    have hne : (ring replicas fn calls).keys ≠ [] := by
      intro hnil
      rcases (ring_keys_eq_nil_iff replicas fn calls).mp hnil with h | h
      · exact hnodes h
      · omega
    have hpos : 0 < (ring replicas fn calls).keys.length := List.length_pos.mpr hne
    have hlt := Nat.mod_lt ((ring replicas fn calls).idx key) hpos
    refine ⟨hne, hlt, ?_⟩
    have hmem : (ring replicas fn calls).keys.getD
        ((ring replicas fn calls).idx key % (ring replicas fn calls).keys.length) 0
        ∈ (ring replicas fn calls).keys := by
      rw [List.getD_eq_getElem _ 0 hlt]
      exact List.getElem_mem hlt
    obtain ⟨n, hn, hv⟩ := ring_owner replicas fn calls _ hmem
    refine ⟨n, hn, hv, ?_⟩
    rw [Get_of_keys_ne_nil _ key hne]
    unfold load
    rw [hv]
    rfl
  · intro h
    have hnil := (ring_keys_eq_nil_iff replicas fn calls).mpr h
    exact ⟨hnil, Get_of_keys_nil _ key hnil⟩

/-- C20 at a concrete input: the default hash, two replicas, nodes "a" and "b". -/
theorem C20_Get_returns_configured_node_witness :
    (ring 2 none [["a", "b"]]).Get "k" ∈ ["a", "b"] :=
  match (C20_Get_returns_configured_node 2 none [["a", "b"]] "k").1 (by decide)
    (by decide) with
  | ⟨_, _, _, hn, _, hget⟩ => hget ▸ hn

end consistenthash

/-! ## Peer picker of the HTTP pool -/

namespace geecache

theorem foldl_setGetter (basePath : String) (peers : List String)
    (hg : String → Option httpGetter) (x : String) :
    (peers.foldl (setGetter basePath) hg) x
      = if x ∈ peers then some { baseURL := x ++ basePath } else hg x := by
  induction peers generalizing hg with
  | nil => simp
  | cons a peers ih =>
    simp only [List.foldl_cons, ih, List.mem_cons]
    by_cases hx : x ∈ peers
    · simp [hx]
    · by_cases hxa : x = a
      · subst hxa
        simp [hx, setGetter]
      · simp [hx, hxa, setGetter]

/-- What `PickPeer` does on a pool on which `Set` has been called: nothing is picked
when the ring owner of the key is "" or the pool's own address, and otherwise the
getter registered for the owner is returned, whose base URL is owner + basePath. -/
theorem PickPeer_after_Set (p : HTTPPool) (peers : List String) (key : String) :
    (p.Set peers).PickPeer key =
      some (if (consistenthash.ring defaultReplicas none [peers]).Get key ≠ "" ∧
              (consistenthash.ring defaultReplicas none [peers]).Get key ≠ p.self
            then (some { baseURL :=
                    (consistenthash.ring defaultReplicas none [peers]).Get key ++ p.basePath },
                  true)
            else (none, false)) := by
  have hring : (consistenthash.New defaultReplicas none).Add peers
      = consistenthash.ring defaultReplicas none [peers] := by
    simp [consistenthash.ring]
  simp only [HTTPPool.PickPeer, HTTPPool.Set, hring]
  split
  · rename_i hcond
    rw [foldl_setGetter]
    rcases consistenthash.ring_Get_mem defaultReplicas none [peers] key with ⟨_, h⟩ | ⟨_, h⟩
    · exact absurd h hcond.1
    · have hmem : (consistenthash.ring defaultReplicas none [peers]).Get key ∈ peers := by
        simpa using h
      simp [hmem]
  · rfl

/-- With an empty peer list nothing is ever picked. -/
theorem PickPeer_after_Set_nil (p : HTTPPool) (key : String) :
    (p.Set []).PickPeer key = some (none, false) := by
  rw [PickPeer_after_Set]
  have h : (consistenthash.ring defaultReplicas none [[]]).Get key = "" := by
    apply consistenthash.Get_of_keys_nil
    exact (consistenthash.ring_keys_eq_nil_iff defaultReplicas none [[]]).mpr (Or.inl rfl)
  simp [h]

/-- C12 evaluated on the code: on a pool created by `NewHTTPPool` on which `Set` has
never been called, `PickPeer` does not return `(nil, false)`: `p.peers` is `nil` and
`p.peers.Get(key)` panics.  On the same pool after `Set()` with an empty peer list it
returns `(nil, false)`. -/
theorem C12_PickPeer_before_Set :
    (NewHTTPPool "http://localhost:8001").PickPeer "Tom" = none ∧
    (NewHTTPPool "http://localhost:8001").PickPeer "Tom" ≠ some (none, false) ∧
    ((NewHTTPPool "http://localhost:8001").Set []).PickPeer "Tom" = some (none, false) :=
  ⟨rfl, by simp [NewHTTPPool, HTTPPool.PickPeer], PickPeer_after_Set_nil _ _⟩

end geecache

/-! ## Call coalescer: one call at a time -/

namespace singleflight

theorem delete_of_find_none {α : Type} (m : List (String × call α)) (key : String)
    (h : find m key = none) : delete m key = m := by
  simp only [find, Option.map_eq_none', List.find?_eq_none, decide_eq_true_eq] at h
  simp only [delete, List.filter_eq_self, Bool.not_eq_true', decide_eq_false_iff_not]
  exact h

theorem find_store {α : Type} (m : List (String × call α)) (key : String) (c : call α) :
    find (store m key c) key = some c := by
  simp [find, store]

theorem find_delete_self {α : Type} (m : List (String × call α)) (key : String) :
    find (delete m key) key = none := by
  simp [find, delete, List.find?_eq_none]

theorem delete_complete_register {α : Type} (m : List (String × call α)) (key : String)
    (r : α × Option Error) :
    delete (complete (register m key) key r) key = delete m key := by
  simp [complete, register, store, delete, List.filter_filter]

theorem enter_not_in_flight {α : Type} (g : Group α) (key : String)
    (hidle : find (g.m.getD []) key = none) :
    g.enter key = (none, { m := some (register (g.m.getD []) key) }) := by
  unfold Group.enter
  simp only [hidle]

/-- A `Do` for a key with no call in flight runs `fn` and returns what it returned;
the coalescer is left as the leader leaves it. -/
theorem Do_not_in_flight {α σ : Type} (g : Group α) (key : String)
    (fn : σ → Option ((α × Option Error) × σ)) (s s1 : σ) (r : α × Option Error)
    (hidle : find (g.m.getD []) key = none) (hfn : fn s = some (r, s1)) :
    g.Do key fn s = some (r, s1, (g.enter key).2.leave key r) := by
  unfold Group.Do
  rw [enter_not_in_flight g key hidle]
  simp only [hfn]

/-- While the leader's `fn` runs, a second caller of `Do` for the same key finds the
registered record and waits: it does not return and does not run its function. -/
theorem Do_waits_while_in_flight {α σ : Type} (g : Group α) (key : String)
    (fn : σ → Option ((α × Option Error) × σ)) (s : σ)
    (hidle : find (g.m.getD []) key = none) :
    (g.enter key).2.Do key fn s = none := by
  rw [enter_not_in_flight g key hidle]
  unfold Group.Do Group.enter
  simp [register, find_store]

/-- C14 (the coalescer does not cache): for every coalescer, key and `fn`, a
`Do(key, fn)` made while no call for `key` is in flight enters as the leader and
registers the call (while `fn` runs the map holds a record for `key` that is not
done), invokes `fn` exactly once (the invocation counter goes up by one) and returns
exactly the (value, error) pair that `fn` returned, also when it is an error.  On
return the record, into which the result had been stored, has been deleted: the map of
calls in flight holds no record for `key` and holds the records it held before the
call.  An immediately following `Do(key, fn2)` therefore invokes `fn2` (once) and
returns the result of `fn2`, not the earlier one. -/
theorem C14_Do_does_not_cache {α σ : Type} (g : Group α) (key : String)
    (fn fn2 : σ → Option ((α × Option Error) × σ)) (s s1 s2 : σ)
    (r r2 : α × Option Error) (n : Nat)
    (hidle : find (g.m.getD []) key = none)
    (hfn : fn s = some (r, s1)) (hfn2 : fn2 s1 = some (r2, s2)) :
    ∃ g1 g2, (g.enter key).1 = none ∧
      find ((g.enter key).2.m.getD []) key
        = some { done := false, val := none, err := none } ∧
      g.Do key (counted fn) (s, n) = some (r, (s1, n + 1), g1) ∧
      find (complete ((g.enter key).2.m.getD []) key r) key
        = some { done := true, val := some r.1, err := r.2 } ∧
      g1 = (g.enter key).2.leave key r ∧
      find (g1.m.getD []) key = none ∧
      g1.m.getD [] = g.m.getD [] ∧
      g1.Do key (counted fn2) (s1, n + 1) = some (r2, (s2, n + 2), g2) := by
  have h1 : counted fn (s, n) = some (r, (s1, n + 1)) := by simp [counted, hfn]
  have h2 : counted fn2 (s1, n + 1) = some (r2, (s2, n + 2)) := by simp [counted, hfn2]
  have henter := enter_not_in_flight g key hidle
  have hmap : ((g.enter key).2.leave key r).m.getD [] = g.m.getD [] := by
    rw [henter]
    simp only [Group.leave, Option.getD_some]
    rw [delete_complete_register, delete_of_find_none _ key hidle]
  have hidle1 : find (((g.enter key).2.leave key r).m.getD []) key = none := by
    simp only [Group.leave, Option.getD_some]
    exact find_delete_self _ key
  refine ⟨_, _, by rw [henter], ?_,
    Do_not_in_flight g key (counted fn) (s, n) (s1, n + 1) r hidle h1, ?_, rfl, hidle1, hmap,
    Do_not_in_flight _ key (counted fn2) (s1, n + 1) (s2, n + 2) r2 hidle1 h2⟩
  · rw [henter]
    exact find_store _ key _
  · exact find_store _ key _

/-- C14 at a concrete input: a coalescer holding a record of another key "j", a first
function that fails and a second that succeeds; the state is the number the functions
add to. -/
theorem C14_Do_does_not_cache_witness :
    ∃ g1 g2, (busyGroup.enter "k").1 = none ∧
      find ((busyGroup.enter "k").2.m.getD []) "k"
        = some { done := false, val := none, err := none } ∧
      Group.Do busyGroup "k"
          (counted (fun s : Nat => some ((0, some "boom"), s + 10))) (0, 0)
        = some ((0, some "boom"), (10, 1), g1) ∧
      find (complete ((busyGroup.enter "k").2.m.getD []) "k" (0, some "boom")) "k"
        = some { done := true, val := some (0, some "boom").1, err := (0, some "boom").2 } ∧
      g1 = (busyGroup.enter "k").2.leave "k" (0, some "boom") ∧
      find (g1.m.getD []) "k" = none ∧
      g1.m.getD [] = busyGroup.m.getD [] ∧
      g1.Do "k" (counted (fun s : Nat => some ((7, none), s + 1))) (10, 1)
        = some ((7, none), (11, 2), g2) :=
  C14_Do_does_not_cache busyGroup "k"
    (fun s : Nat => some ((0, some "boom"), s + 10)) (fun s : Nat => some ((7, none), s + 1))
    0 10 11 (0, some "boom") (7, none) 0 rfl rfl rfl

end singleflight

/-! ## Eviction cache: one entry per key -/

namespace lru

variable {V : Type}

theorem distinct_of_sublist (l1 l2 : List (entry V)) (hsub : l1.Sublist l2)
    (h : (keys l2).Nodup) : (keys l1).Nodup :=
  (hsub.map entry.key).nodup h

theorem distinct_New (maxBytes : Int) (cb : Bool) : DistinctKeys (New maxBytes cb : Cache V) := by
  simp [DistinctKeys, New, keys]

theorem distinct_Get (c : Cache V) (key : String) (h : DistinctKeys c) :
    DistinctKeys (c.Get key).2 := by
  unfold Cache.Get
  cases hl : lookup c.ll key with
  | none => exact h
  | some ele =>
    have hk := lookup_key c.ll key ele hl
    simp only [DistinctKeys, MoveToBack, keys, List.map_append, List.map_cons, List.map_nil]
    rw [List.nodup_append]
    refine ⟨distinct_of_sublist _ _ (remove_sublist c.ll ele.key) h, List.nodup_singleton _, ?_⟩
    intro a ha hb
    rw [List.mem_singleton] at hb
    subst hb
    exact keys_remove_of_nodup c.ll ele.key h ha

theorem distinct_RemoveOldest [Value V] (c : Cache V) (h : DistinctKeys c) :
    DistinctKeys c.RemoveOldest := by
  unfold DistinctKeys
  rw [RemoveOldest_ll]
  exact distinct_of_sublist _ _ (List.dropLast_sublist c.ll) h

theorem distinct_insert [Value V] (c : Cache V) (key : String) (value : V)
    (h : DistinctKeys c) : DistinctKeys (c.insert key value) := by
  unfold Cache.insert
  cases hl : lookup c.ll key with
  | none =>
    simp only [DistinctKeys, keys, List.map_cons, List.nodup_cons]
    exact ⟨(lookup_eq_none_iff c.ll key).mp hl, h⟩
  | some ele =>
    simp only [DistinctKeys, MoveToFront, keys, List.map_cons, List.nodup_cons]
    exact ⟨keys_remove_of_nodup c.ll ele.key h,
      distinct_of_sublist _ _ (remove_sublist c.ll ele.key) h⟩

theorem distinct_evictLoop [Value V] (fuel : Nat) (c c1 : Cache V) (h : DistinctKeys c)
    (hrun : evictLoop fuel c = some c1) : DistinctKeys c1 := by
  induction fuel generalizing c with
  | zero => simp [evictLoop] at hrun
  | succ n ih =>
    unfold evictLoop at hrun
    split at hrun
    · exact ih c.RemoveOldest (distinct_RemoveOldest c h) hrun
    · cases hrun
      exact h

theorem distinct_step [Value V] (fuel : Nat) (c c1 : Cache V) (op : Op V)
    (h : DistinctKeys c) (hrun : step fuel c op = some c1) : DistinctKeys c1 := by
  cases op with
  | add key value =>
    exact distinct_evictLoop fuel _ c1 (distinct_insert c key value h) hrun
  | get key =>
    simp only [step, Option.some.injEq] at hrun
    rw [← hrun]
    exact distinct_Get c key h
  | removeOldest =>
    simp only [step, Option.some.injEq] at hrun
    rw [← hrun]
    exact distinct_RemoveOldest c h

theorem distinct_run [Value V] (fuel : Nat) (ops : List (Op V)) (c c1 : Cache V)
    (h : DistinctKeys c) (hrun : run fuel c ops = some c1) : DistinctKeys c1 := by
  induction ops generalizing c with
  | nil =>
    simp only [run, Option.some.injEq] at hrun
    rw [← hrun]
    exact h
  | cons op ops ih =>
    simp only [run] at hrun
    cases hs : step fuel c op with
    | none => simp [hs] at hrun
    | some c2 =>
      rw [hs] at hrun
      exact ih c2 (distinct_step fuel c c2 op h hs) hrun

/-- Every cache state reached from `New` carries the configured limit, an accounted
byte counter and one entry per key. -/
theorem reachable_invariants [Value V] (maxBytes : Int) (cb : Bool) (ops : List (Op V))
    (fuel : Nat) (c : Cache V) (hreach : run fuel (New maxBytes cb) ops = some c) :
    c.maxBytes = maxBytes ∧ Accounted c ∧ DistinctKeys c :=
  ⟨run_maxBytes fuel ops _ c hreach,
    accounted_run fuel ops _ c (accounted_New maxBytes cb) hreach,
    distinct_run fuel ops _ c (distinct_New maxBytes cb) hreach⟩

end lru

/-! ## Eviction cache: the ordering example and the postcondition of `RemoveOldest` -/

namespace lru

variable {V : Type}

/-- C15 evaluated on the code, where it fails: with `maxBytes = 20` the entries
("a", "1"), ("b", "2") and ("c", "3456789012345") have sizes 2, 2 and 14, in total 18,
which does not exceed 20.  The third `Add` evicts nothing: all three entries are held
and the callback has not been invoked. -/
theorem C15_no_eviction_at_limit_20 :
    run 4 (New 20 true) abcAdds = some cacheABC20 ∧
    cacheABC20.nbytes = 18 ∧ cacheABC20.Len = 3 ∧ cacheABC20.evicted = [] ∧
    (cacheABC20.Get "a").1 = some "1" := by
  decide

/-- C15 as amended (ordering example): in an eviction cache created with
`maxBytes = 20` and an eviction callback, adding ("a", "1"), ("b", "2") and
("c", "3456789012345") gives a total size of 18, which does not exceed 20, so nothing
is evicted and the callback is not invoked.  With a limit the total exceeds, the third
`Add` evicts the least-recently-touched entry ("a", "1") first and the callback
receives exactly that pair: with `maxBytes = 17` only "a" is evicted, with
`maxBytes = 15` "a" and then "b" are. -/
theorem C15_lru_ordering_example :
    run 4 (New 20 true) abcAdds = some cacheABC20 ∧ cacheABC20.evicted = [] ∧
    run 4 (New 17 true) abcAdds = some cacheABC17 ∧
    cacheABC17.evicted = [("a", "1")] ∧ keys cacheABC17.ll = ["c", "b"] ∧
    run 4 (New 15 true) abcAdds = some cacheABC15 ∧
    cacheABC15.evicted = [("a", "1"), ("b", "2")] ∧ keys cacheABC15.ll = ["c"] := by
  decide

/-- C16 (postcondition of `RemoveOldest`): on every cache reached from `New`,
`RemoveOldest` on an empty cache changes nothing and invokes no callback; on a
non-empty cache it removes exactly the entry at the back of the list (the other
entries and their order are unchanged, `Len` decreases by one, the removed key is no
longer found by `Get`), decreases `nbytes` by exactly `len(key) + value.Len()` of the
removed entry, and, if a callback is registered, invokes it exactly once with the
removed (key, value), and not at all otherwise. -/
theorem C16_RemoveOldest_postcondition [Value V] (maxBytes : Int) (cb : Bool)
    (ops : List (Op V)) (fuel : Nat) (c : Cache V)
    (hreach : run fuel (New maxBytes cb) ops = some c) :
    (c.ll = [] → c.RemoveOldest = c) ∧
    (c.ll ≠ [] → ∃ kv, c.ll.getLast? = some kv ∧
      c.ll = c.RemoveOldest.ll ++ [kv] ∧
      c.RemoveOldest.Len + 1 = c.Len ∧
      (c.RemoveOldest.Get kv.key).1 = none ∧
      c.RemoveOldest.nbytes = c.nbytes - ((strLen kv.key : Int) + (Value.Len kv.value : Int)) ∧
      c.RemoveOldest.evicted
        = (if c.OnEvicted then c.evicted ++ [(kv.key, kv.value)] else c.evicted) ∧
      c.RemoveOldest.maxBytes = c.maxBytes ∧ c.RemoveOldest.OnEvicted = c.OnEvicted) := by
  obtain ⟨_, _, hdist⟩ := reachable_invariants maxBytes cb ops fuel c hreach
  constructor
  · intro hnil
    simp [Cache.RemoveOldest, hnil]
  · intro hne
    have hlast : c.ll.getLast? = some (c.ll.getLast hne) := List.getLast?_eq_getLast c.ll hne
    have hsplit : c.ll = c.ll.dropLast ++ [c.ll.getLast hne] :=
      (List.dropLast_append_getLast hne).symm
    have hll : c.RemoveOldest.ll = c.ll.dropLast := RemoveOldest_ll c
    refine ⟨c.ll.getLast hne, hlast, by rw [hll]; exact hsplit, ?_, ?_, ?_, ?_, ?_, ?_⟩
    · have hlen := length_RemoveOldest c
      have hpos : 0 < c.ll.length := List.length_pos.mpr hne
      simp only [Cache.Len]
      omega
    · apply congrArg Prod.fst (Get_miss _ _ _)
      rw [hll, lookup_eq_none_iff]
      have hnd : (keys (c.ll.dropLast ++ [c.ll.getLast hne])).Nodup := by
        rw [← hsplit]
        exact hdist
      simp only [keys, List.map_append, List.map_cons, List.map_nil] at hnd
      intro hmem
      exact (List.nodup_append.mp hnd).2.2 hmem (List.mem_singleton_self _)
    · simp [Cache.RemoveOldest, hlast, entry.size]
    · simp [Cache.RemoveOldest, hlast]
    · exact maxBytes_RemoveOldest c
    · simp [Cache.RemoveOldest, hlast]

/-- C16 at a concrete input: the cache of the ordering example with limit 20, from
which `RemoveOldest` removes "a". -/
theorem C16_RemoveOldest_postcondition_witness :
    ∃ kv, cacheABC20.ll.getLast? = some kv ∧
      cacheABC20.ll = cacheABC20.RemoveOldest.ll ++ [kv] ∧
      cacheABC20.RemoveOldest.Len + 1 = cacheABC20.Len ∧
      (cacheABC20.RemoveOldest.Get kv.key).1 = none ∧
      cacheABC20.RemoveOldest.nbytes
        = cacheABC20.nbytes - ((strLen kv.key : Int) + (Value.Len kv.value : Int)) ∧
      cacheABC20.RemoveOldest.evicted
        = (if cacheABC20.OnEvicted then cacheABC20.evicted ++ [(kv.key, kv.value)]
           else cacheABC20.evicted) ∧
      cacheABC20.RemoveOldest.maxBytes = cacheABC20.maxBytes ∧
      cacheABC20.RemoveOldest.OnEvicted = cacheABC20.OnEvicted :=
  (C16_RemoveOldest_postcondition 20 true abcAdds 4 cacheABC20 (by decide)).2 (by decide)

end lru

/-! ## Eviction cache: termination of `Add` and the `Add`/`Get` round trip -/

namespace lru

variable {V : Type}

theorem nonNegLen_insert [Value V] (c : Cache V) (key : String) (value : V)
    (hnn : NonNegLen c.ll) (hv : 0 ≤ Value.Len value) : NonNegLen (c.insert key value).ll := by
  obtain ⟨rest, hrest, hsub⟩ := insert_ll_sublist c key value
  rw [hrest]
  intro e he
  rcases List.mem_cons.mp he with rfl | he
  · exact hv
  · exact hnn e (hsub.subset he)

theorem mem_keys_of_lookup (ll : List (entry V)) (key : String) (e : entry V)
    (h : lookup ll key = some e) : key ∈ keys ll := by
  have hmem : e ∈ ll := List.mem_of_find?_eq_some h
  have hk := lookup_key ll key e h
  rw [← hk]
  exact List.mem_map_of_mem entry.key hmem

end lru

namespace geecache

/-- A peer whose address is the empty string is never picked: `PickPeer` takes the
owner "" for the answer of an empty ring. -/
theorem PickPeer_empty_address (p : HTTPPool) (key : String) :
    (p.Set [""]).PickPeer key = some (none, false) := by
  rw [PickPeer_after_Set]
  have h : (consistenthash.ring defaultReplicas none [[""]]).Get key = "" := by
    rcases consistenthash.ring_Get_mem defaultReplicas none [[""]] key with ⟨_, h⟩ | ⟨_, h⟩
    · exact h
    · simpa using h
  simp [h]

end geecache
